import Mathlib

/-!
# Verification of the Louvain community-detection core (`louvain.cpp`)

This file is a shallow embedding of the Louvain implementation found in the
repository (functions `first_phase`, `second_phase`, `modularity`,
`induce_community_graph` and `best_partition`), together with theorems that
settle the specification's claims about it.

Modelling conventions:

* `double` values are modelled by `ℚ` (exact rational arithmetic; the C++
  code performs only field operations on small integral data, and no claim
  under study depends on IEEE-754 rounding).
* `std::unordered_map` is modelled by an association list (`Map α`) with
  first-match lookup.  `operator[]` (which default-inserts on a missing key)
  is modelled faithfully by `mgetI` / `mmodI`, returning the possibly grown
  map; `.at` (which throws on a missing key) is modelled by an `Option`
  lookup, and functions that call it return `Option`.
* Iteration order of an `unordered_map` / of the store's vertex stream is
  unspecified in C++; the embedding iterates association lists and vertex
  lists in their list order, and theorems quantify over arbitrary orders.
* The two `while` loops without a static bound (the sweep loops of the two
  phases and the multilevel driver loop) take an explicit fuel argument and
  return `none` on fuel exhaustion.
* Machine-integer arithmetic: `std::size_t` values (`count_edges`) are `ℕ`;
  the driver's `int degree_sum` accumulator and its `double → int`
  truncating conversions are modelled exactly over `ℤ`/`ℚ`.
-/

set_option maxHeartbeats 2000000

namespace Louvain

/-- Keys (`ustore_key_t`): vertex and community identifiers. -/
abbrev Key := ℕ

/-- Association-list model of `std::unordered_map<ustore_key_t, α>`. -/
abbrev Map (α : Type) := List (Key × α)

/-- Lookup (first match), `none` when the key is absent. -/
def mfind? {α : Type} : Map α → Key → Option α
  | [], _ => none
  | (k', v) :: rest, k => if k' = k then some v else mfind? rest k

/-- Write `m[k] = v`: update the first entry for `k`, or append a new one. -/
def mset {α : Type} : Map α → Key → α → Map α
  | [], k, v => [(k, v)]
  | (k', v') :: rest, k, v =>
      if k' = k then (k, v) :: rest else (k', v') :: mset rest k v

/-- Read with a default, without modification (used where the C++
`operator[]` insertion of a default value is observationally irrelevant). -/
def mgetD {α : Type} (m : Map α) (k : Key) (d : α) : α :=
  (mfind? m k).getD d

/-- Read through `operator[]`: returns the stored value, default-inserting a fresh
entry when the key is absent (mirrors `std::unordered_map::operator[]`). -/
def mgetI {α : Type} (m : Map α) (k : Key) (d : α) : α × Map α :=
  match mfind? m k with
  | some v => (v, m)
  | none => (d, m ++ [(k, d)])

/-- Read-modify-write through `operator[]`: `f` applied to `m[k]`
(default-inserting `d` first when `k` is absent). -/
def mmodI {α : Type} (m : Map α) (k : Key) (d : α) (f : α → α) : Map α :=
  let (v, m') := mgetI m k d
  mset m' k (f v)

/-- Accumulate `m[k] += w` on a numeric map with default `0`. -/
def maddD (m : Map ℚ) (k : Key) (w : ℚ) : Map ℚ :=
  mset m k (mgetD m k 0 + w)

/-- The key list of a map, in entry order. -/
def mkeys {α : Type} (m : Map α) : List Key :=
  m.map (·.1)

/-- Record `community_degree_t`: per-community degree statistics. -/
structure CommunityDegree where
  in_degree : ℚ
  tot_degree : ℚ
deriving DecidableEq, Repr, Inhabited

/-- The zero statistics record (`community_degree_t {}`). -/
def CommunityDegree.zero : CommunityDegree := ⟨0, 0⟩

/-- In-memory weighted graph `graph_t`:
`unordered_map<key, unordered_map<key, double>>`. -/
abbrev Graph := Map (Map ℚ)

/-- The external graph store (`graph_collection_t`), abstracted to exactly
the operations `best_partition` and `first_phase` use: the vertex stream
(modelled as the list of streamed keys, with batch boundaries elided since
batching only groups the same traversal), per-vertex neighbor lists, the
per-vertex degrees answered by `degrees(...)`, and the reported
`number_of_edges()`. -/
structure StoreGraph where
  vertices : List Key
  neighbors : Key → List Key
  degree : Key → ℚ
  count_edges : ℕ

/-- The three mutable maps threaded through a phase:
`partition`, `degrees` (`vertex_degrees_t`), `community_degrees`. -/
structure LMState where
  partition : Map Key
  degrees : Map ℚ
  community_degrees : Map CommunityDegree
deriving Repr, DecidableEq

/-- The modularity delta of lines 69-71 (identically lines 129-131):
`(1.0 / count_edges) * (vertex_in_neighbor_com_degree - vertex_in_vertex_com_degree)
 - (vertex_degree / (2.0 * (count_edges * count_edges)))
   * (vertex_degree + neighbor_com_tot_degree - vertex_com_tot_degree)`.
`count_edges * count_edges` is the C++ `std::size_t` product (overflow is
not modelled; the claims under study are stated over ideal integers). -/
def delta (count_edges : ℕ) (vertex_degree din_nb din_own nb_tot own_tot : ℚ) : ℚ :=
  (1 / (count_edges : ℚ)) * (din_nb - din_own) -
    (vertex_degree / (2 * ((count_edges * count_edges : ℕ) : ℚ))) *
      (vertex_degree + nb_tot - own_tot)

/-- Lines 56-59 / 117-119: clear `degree_in_coms` and tally, for each
neighbor, `degree_in_coms[partition[neighbor]] += weight` (weight `1` per
occurrence at level 0).  The `partition[neighbor]` read is `operator[]`
and may default-insert community `0` for a dangling neighbor; the grown
partition is returned.  Reads of `degree_in_coms` itself are modelled
default-`0` without insertion: the map is local, rebuilt per vertex, and
inserting a `0` before reading it returns the same values as reading the
default directly. -/
def tallyNeighbors (adj : List (Key × ℚ)) (part : Map Key) : Map ℚ × Map Key :=
  adj.foldl
    (fun acc nw =>
      (maddD acc.1 (mgetI acc.2 nw.1 0).1 nw.2, (mgetI acc.2 nw.1 0).2))
    ([], part)

/-- Lines 62-77 / 122-137: scan the neighbors, and for each one in a
community different from the vertex's own, compute `delta` and keep the
strictly best candidate (initial best is `(0, own community)`).  The
`partition[neighbor]` and `community_degrees[neighbor_community]`
`operator[]` reads are threaded. -/
def scanCandidates (count_edges : ℕ) (adj : List (Key × ℚ)) (vcom : Key)
    (vdeg vctot dInOwn : ℚ) (dic : Map ℚ) (part : Map Key)
    (cd : Map CommunityDegree) :
    ℚ × Key × Map Key × Map CommunityDegree :=
  adj.foldl
    (fun acc nw =>
      let bestMod := acc.1
      let bestCom := acc.2.1
      let part := acc.2.2.1
      let cd := acc.2.2.2
      let ncom := (mgetI part nw.1 0).1
      let part' := (mgetI part nw.1 0).2
      if vcom = ncom then (bestMod, bestCom, part', cd)
      else
        let ncd := (mgetI cd ncom CommunityDegree.zero).1
        let cd' := (mgetI cd ncom CommunityDegree.zero).2
        let d := delta count_edges vdeg (mgetD dic ncom 0) dInOwn ncd.tot_degree vctot
        if d > bestMod then (d, ncom, part', cd')
        else (bestMod, bestCom, part', cd'))
    (0, vcom, part, cd)

/-- Lines 79-88 / 139-148: the accepted-move update of
`community_degrees` for the old and new community. -/
def applyMove (cd : Map CommunityDegree) (vcom bestCom : Key)
    (vdeg dInOwn dInBest : ℚ) : Map CommunityDegree :=
  let cd₁ := mmodI cd vcom CommunityDegree.zero
    (fun x => { x with tot_degree := x.tot_degree - (vdeg - dInOwn) })
  let cd₂ := mmodI cd₁ bestCom CommunityDegree.zero
    (fun x => { x with tot_degree := x.tot_degree + (vdeg - dInBest) })
  let cd₃ := mmodI cd₂ vcom CommunityDegree.zero
    (fun x => { x with in_degree := x.in_degree - dInOwn })
  mmodI cd₃ bestCom CommunityDegree.zero
    (fun x => { x with in_degree := x.in_degree + dInBest })

/-- Lines 49-88 / 109-148: the per-vertex step of a sweep.  Returns the
updated state and whether the vertex moved. -/
def processVertex (count_edges : ℕ) (adjOf : Key → List (Key × ℚ))
    (st : LMState) (v : Key) : LMState × Bool :=
  let vdeg := (mgetI st.degrees v 0).1
  let degrees₁ := (mgetI st.degrees v 0).2
  let vcom := (mgetI st.partition v 0).1
  let part₁ := (mgetI st.partition v 0).2
  let vctot := (mgetI st.community_degrees vcom CommunityDegree.zero).1.tot_degree
  let cd₁ := (mgetI st.community_degrees vcom CommunityDegree.zero).2
  let adj := adjOf v
  let dic := (tallyNeighbors adj part₁).1
  let part₂ := (tallyNeighbors adj part₁).2
  let dInOwn := mgetD dic vcom 0
  let scan := scanCandidates count_edges adj vcom vdeg vctot dInOwn dic part₂ cd₁
  let bestCom := scan.2.1
  let part₃ := scan.2.2.1
  let cd₂ := scan.2.2.2
  if bestCom ≠ vcom then
    let dInBest := mgetD dic bestCom 0
    ({ partition := mset part₃ v bestCom,
       degrees := degrees₁,
       community_degrees := applyMove cd₂ vcom bestCom vdeg dInOwn dInBest },
     true)
  else
    ({ partition := part₃, degrees := degrees₁, community_degrees := cd₂ }, false)

/-- One full sweep over the vertex sequence (lines 47-90 / 108-149),
returning the state and whether any vertex moved during the sweep. -/
def sweep (count_edges : ℕ) (verts : List Key) (adjOf : Key → List (Key × ℚ))
    (st : LMState) : LMState × Bool :=
  verts.foldl
    (fun acc v =>
      ((processVertex count_edges adjOf acc.1 v).1,
        acc.2 || (processVertex count_edges adjOf acc.1 v).2))
    (st, false)

/-- The `while (modified)` loop shared by `first_phase` and `second_phase`
(lines 45-91 / 106-150), with explicit fuel; `improvement` accumulates
whether any move occurred across all sweeps. -/
def localMove (fuel : ℕ) (count_edges : ℕ) (verts : List Key)
    (adjOf : Key → List (Key × ℚ)) (st : LMState) (improvement : Bool) :
    Option (LMState × Bool) :=
  match fuel with
  | 0 => none
  | fuel + 1 =>
      let res := sweep count_edges verts adjOf st
      if res.2 then localMove fuel count_edges verts adjOf res.1 true
      else some (res.1, improvement)

/-- Function `first_phase` (lines 34-94): the level-0 local-move engine.  Each sweep
re-seeks the store's vertex stream to the start (`seek_to_first`), so the
sweep order is `store.vertices` every time; the store's neighbor lists
carry implicit unit weights (`+= 1` at line 59). -/
def first_phase (fuel : ℕ) (store : StoreGraph) (st : LMState)
    (count_edges : ℕ) : Option (LMState × Bool) :=
  localMove fuel count_edges store.vertices
    (fun v => (store.neighbors v).map (fun n => (n, (1 : ℚ)))) st false

/-- Function `second_phase` (lines 96-153): the in-memory local-move engine.  It
iterates the entries of `graph` directly; since `graph_t` keys are unique,
this equals sweeping `mkeys graph` and looking each vertex's adjacency up. -/
def second_phase (fuel : ℕ) (graph : Graph) (st : LMState)
    (count_edges : ℕ) : Option (LMState × Bool) :=
  localMove fuel count_edges (mkeys graph)
    (fun v => mgetD graph v []) st false

/-- Function `modularity` (lines 155-164).  The sum runs over the **entries of
`partition`** (one term per vertex); `community_degrees.at` throws on a
missing community, modelled by `none`. -/
def modularity (partition : Map Key) (cd : Map CommunityDegree)
    (deg_sum : ℚ) : Option ℚ :=
  let m := deg_sum / 2
  let norm := 1 / (m * m)
  partition.foldl
    (fun acc vc => do
      let r ← acc
      let c ← mfind? cd vc.2
      pure (r + ((c.tot_degree - c.in_degree) / m - deg_sum * deg_sum * norm)))
    (some 0)

/-- Update `induced_graph[a][b] += w` (lines 179 / 196). -/
def gAdd (g : Graph) (a b : Key) (w : ℚ) : Graph :=
  mmodI g a [] (fun inner => maddD inner b w)

/-- Function `induce_community_graph` over the store (lines 166-185): unit edge
weights, intra-community edges dropped; `partition.at` throws on a missing
vertex or neighbor, modelled by `none`. -/
def induce_community_graph_store (store : StoreGraph) (p : Map Key) :
    Option Graph :=
  store.vertices.foldl
    (fun acc v => do
      let g ← acc
      let vcom ← mfind? p v
      (store.neighbors v).foldl
        (fun acc2 n => do
          let g2 ← acc2
          let ncom ← mfind? p n
          if vcom = ncom then pure g2 else pure (gAdd g2 vcom ncom 1))
        (pure g))
    (some [])

/-- Function `induce_community_graph` over an in-memory graph (lines 187-201). -/
def induce_community_graph_mem (graph : Graph) (p : Map Key) :
    Option Graph :=
  graph.foldl
    (fun acc ventry => do
      let g ← acc
      let vcom ← mfind? p ventry.1
      ventry.2.foldl
        (fun acc2 nw => do
          let g2 ← acc2
          let ncom ← mfind? p nw.1
          if vcom = ncom then pure g2 else pure (gAdd g2 vcom ncom nw.2))
        (pure g))
    (some [])

/-- C++ `double → int` conversion: truncation toward zero. -/
def truncQ (q : ℚ) : ℤ :=
  if 0 ≤ q then ⌊q⌋ else -⌊-q⌋

/-- C++ `int / int` division: truncation toward zero. -/
def intDivTrunc (a b : ℤ) : ℤ :=
  truncQ ((a : ℚ) / (b : ℚ))

/-- The default `min_modularity_growth` (line 204, literal `0.0000001`).
The C++ parameter is a `float`; the claims refer to the decimal value
`1e-7`, which is what the exact-arithmetic model uses. -/
def min_modularity_growth_default : ℚ := 1 / 10000000

/-- Function `modularity` evaluates `norm = 1.0 / (m * m)` with `m = deg_sum / 2`
unconditionally (lines 156-157); that division has a zero denominator
exactly when `deg_sum = 0`.  This observation is recorded as a flag by the
driver embedding at each of its two `modularity` call sites. -/
def modularity_div_zero (deg_sum : ℚ) : Bool :=
  deg_sum == 0

/-- Lines 236-253 of the driver loop body: fresh identity partition over
the coarsened graph's vertices, per-vertex degrees (sum of adjacent
weights), `count_edges` counting adjacency entries, and the `int`
accumulator `degree_sum` (`degree_sum += degree` adds in `double` and
truncates back to `int`).  `vertex_degrees` and `community_degrees` were
cleared, so both start empty. -/
def levelInit (g : Graph) : LMState × ℤ × ℕ :=
  g.foldl
    (fun acc ventry =>
      let degree := (ventry.2.map (·.2)).sum
      ({ partition := mset acc.1.partition ventry.1 ventry.1,
         degrees := mset acc.1.degrees ventry.1 degree,
         community_degrees :=
           mset acc.1.community_degrees ventry.1 ⟨0, degree⟩ },
       truncQ ((acc.2.1 : ℚ) + degree), acc.2.2 + ventry.2.length))
    (⟨[], [], []⟩, 0, 0)

/-- The driver's `while (improvement)` loop (lines 235-263), with fuel.
Returns the final partition stack (coarsest first, as produced by
`partitions.insert(partitions.begin(), ...)`) and the accumulated
division-by-zero flag for the `modularity` call of line 256. -/
def driverLoop (fuel pf : ℕ) (graph : Graph) (partitions : List (Map Key))
    (mod : ℚ) (improvement : Bool) (min_growth : ℚ) (dz : Bool) :
    Option (List (Map Key) × Bool) :=
  match fuel with
  | 0 => none
  | fuel + 1 =>
      if improvement then do
        let st := (levelInit graph).1
        let degree_sum := (levelInit graph).2.1
        let count_edges := (levelInit graph).2.2
        let (st', improvement') ← second_phase pf graph st (count_edges / 2)
        let ds2 := intDivTrunc degree_sum 2
        let new_mod ← modularity st'.partition st'.community_degrees (ds2 : ℚ)
        let dz' := dz || modularity_div_zero (ds2 : ℚ)
        if new_mod - mod ≤ min_growth then pure (partitions, dz')
        else do
          let graph' ← induce_community_graph_mem graph st'.partition
          driverLoop fuel pf graph' (st'.partition :: partitions) new_mod
            improvement' min_growth dz'
      else pure (partitions, dz)

/-- Lines 218-228: seed the identity partition, the vertex degrees
returned by the store, and singleton community statistics
`{in_degree = 0, tot_degree = degree}`.  The batched cursor walks every
streamed key once; batch boundaries only group the same traversal and are
elided. -/
def initState (store : StoreGraph) : LMState :=
  store.vertices.foldl
    (fun st v =>
      { partition := mset st.partition v v,
        degrees := mset st.degrees v (store.degree v),
        community_degrees :=
          mset st.community_degrees v ⟨0, store.degree v⟩ })
    ⟨[], [], []⟩

/-- One step of the flattening loop (lines 267-268): for each entry
`(v, c)` of the finer partition `pi`, rewrite its value to
`partition[c]`, where the read is `operator[]` on the coarser composed
map and default-inserts community `0` when `c` is absent.  Each key of
`pi` is visited once and the value read is the original one (a C++
range-for over distinct keys whose values are reassigned in place). -/
def flattenStep (partition : Map Key) (pi : Map Key) : Map Key × Map Key :=
  pi.foldl
    (fun acc vc =>
      (mset acc.1 vc.1 (mgetI acc.2 vc.2 0).1, (mgetI acc.2 vc.2 0).2))
    (pi, partition)

/-- The flattening walk (lines 266-270), coarsest partition first. -/
def flattenGo (partition : Map Key) : List (Map Key) → Map Key
  | [] => partition
  | pi :: rest => flattenGo (flattenStep partition pi).1 rest

/-- Lines 265-270: compose the partition stack, coarsest first, into one
vertex → community mapping.  (`partitions[0]` on an empty stack is never
reached: the driver always pushes the level-0 partition.) -/
def flatten : List (Map Key) → Map Key
  | [] => []
  | p0 :: rest => flattenGo p0 rest

/-- Function `best_partition` (lines 203-273): the multilevel driver.
`pf` is the fuel for each phase's sweep loop and `lf` the fuel of the
multilevel loop; `none` models fuel exhaustion (and a C++ `.at` throw).
The returned `Bool` records whether either `modularity` call site
(line 231 with `deg_sum = count_edges`, line 256 with
`deg_sum = degree_sum / 2`) performed the zero-denominator division of
`norm = 1.0 / (m * m)`. -/
def best_partition (store : StoreGraph) (min_growth : ℚ) (pf lf : ℕ) :
    Option (Map Key × Bool) := do
  let count_edges := store.count_edges
  let st0 := initState store
  let (st1, improvement) ← first_phase pf store st0 count_edges
  let mod ← modularity st1.partition st1.community_degrees (count_edges : ℚ)
  let dz0 := modularity_div_zero (count_edges : ℚ)
  let graph ← induce_community_graph_store store st1.partition
  let (parts, dz) ←
    driverLoop lf pf graph [st1.partition] mod improvement min_growth dz0
  pure (flatten parts, dz)

/-! ## Basic lemmas about the map model -/

theorem mfind?_mset_self {α : Type} (m : Map α) (k : Key) (v : α) :
    mfind? (mset m k v) k = some v := by
  induction m with
  | nil => simp [mset, mfind?]
  | cons e rest ih =>
      by_cases h : e.1 = k <;> simp [mset, mfind?, h, ih]

theorem mfind?_mset_ne {α : Type} (m : Map α) (k k' : Key) (v : α)
    (h : k' ≠ k) : mfind? (mset m k v) k' = mfind? m k' := by
  induction m with
  | nil => simp [mset, mfind?, Ne.symm h]
  | cons e rest ih =>
      by_cases he : e.1 = k
      · simp [mset, mfind?, he, Ne.symm h]
      · by_cases he' : e.1 = k' <;> simp [mset, mfind?, he, he', ih, h]

theorem mgetD_mset {α : Type} (m : Map α) (k x : Key) (v d : α) :
    mgetD (mset m k v) x d = if x = k then v else mgetD m x d := by
  by_cases h : x = k
  · subst h; simp [mgetD, mfind?_mset_self]
  · simp [mgetD, h, mfind?_mset_ne m k x v h]

theorem mgetI_fst {α : Type} (m : Map α) (k : Key) (d : α) :
    (mgetI m k d).1 = mgetD m k d := by
  unfold mgetI mgetD
  cases mfind? m k <;> simp

theorem mfind?_append {α : Type} (m m' : Map α) (k : Key) :
    mfind? (m ++ m') k = ((mfind? m k).orElse (fun _ => mfind? m' k)) := by
  induction m with
  | nil => simp [mfind?]
  | cons e rest ih =>
      by_cases h : e.1 = k <;> simp [mfind?, h, ih]

/-- An `operator[]` insertion is invisible to default-reads with the same
default: the inserted value is the default itself. -/
theorem mgetD_mgetI_snd {α : Type} (m : Map α) (k x : Key) (d : α) :
    mgetD (mgetI m k d).2 x d = mgetD m x d := by
  unfold mgetI
  cases hf : mfind? m k with
  | some v => simp
  | none =>
      simp only [mgetD, mfind?_append]
      cases hx : mfind? m x with
      | some w => simp
      | none =>
          by_cases hxk : x = k
          · subst hxk; simp [mfind?, hf]
          · simp only [mfind?, Option.none_orElse]
            split <;> simp

theorem mgetD_mmodI {α : Type} (m : Map α) (k x : Key) (d : α) (f : α → α) :
    mgetD (mmodI m k d f) x d =
      if x = k then f (mgetD m k d) else mgetD m x d := by
  unfold mmodI
  rw [mgetD_mset]
  by_cases h : x = k <;>
    simp [h, mgetI_fst, mgetD_mgetI_snd]

theorem mgetD_maddD (m : Map ℚ) (k x : Key) (w : ℚ) :
    mgetD (maddD m k w) x 0 = if x = k then mgetD m k 0 + w else mgetD m x 0 := by
  unfold maddD
  rw [mgetD_mset]

theorem mkeys_cons {α : Type} (e : Key × α) (m : Map α) :
    mkeys (e :: m) = e.1 :: mkeys m := rfl

theorem mkeys_mset_mem {α : Type} (m : Map α) (k : Key) (v : α)
    (h : k ∈ mkeys m) : mkeys (mset m k v) = mkeys m := by
  induction m with
  | nil => simp [mkeys] at h
  | cons e rest ih =>
      by_cases he : e.1 = k
      · simp [mset, he, mkeys_cons]
      · simp only [mkeys_cons, List.mem_cons] at h
        rcases h with h | h
        · exact absurd h.symm he
        · simp [mset, he, mkeys_cons, ih h]

theorem mkeys_mset_not_mem {α : Type} (m : Map α) (k : Key) (v : α)
    (h : k ∉ mkeys m) : mkeys (mset m k v) = mkeys m ++ [k] := by
  induction m with
  | nil => simp [mset, mkeys]
  | cons e rest ih =>
      simp only [mkeys_cons, List.mem_cons] at h
      push_neg at h
      simp [mset, Ne.symm h.1, mkeys_cons, ih h.2]

theorem mfind?_isSome_of_mem_mkeys {α : Type} (m : Map α) (k : Key)
    (h : k ∈ mkeys m) : (mfind? m k).isSome := by
  induction m with
  | nil => simp [mkeys] at h
  | cons e rest ih =>
      by_cases he : e.1 = k
      · simp [mfind?, he]
      · simp only [mkeys_cons, List.mem_cons] at h
        rcases h with h | h
        · exact absurd h.symm he
        · simpa [mfind?, he] using ih h

theorem mem_mkeys_of_mfind?_isSome {α : Type} (m : Map α) (k : Key)
    (h : (mfind? m k).isSome) : k ∈ mkeys m := by
  induction m with
  | nil => simp [mfind?] at h
  | cons e rest ih =>
      by_cases he : e.1 = k
      · simp [mkeys_cons, he]
      · simp only [mfind?, he, if_false] at h
        simp [mkeys_cons, ih h]

theorem mkeys_mgetI_snd_mem {α : Type} (m : Map α) (k : Key) (d : α)
    (h : k ∈ mkeys m) : mkeys (mgetI m k d).2 = mkeys m := by
  unfold mgetI
  cases hf : mfind? m k with
  | some v => simp
  | none =>
      have := mfind?_isSome_of_mem_mkeys m k h
      rw [hf] at this
      simp at this

/-! ## Claim C5: the modularity delta formula -/

/-- Modelled from the spec's words (§4.2 step 3): `delta = (1/E) *
(degree_in_neighbor_com - degree_in_own_com) - (vertex_degree / (2*E^2)) *
(vertex_degree + neighbor_com_total_degree - own_com_total_degree)`. -/
def delta_spec (E : ℕ) (vertex_degree din_nb din_own nb_tot own_tot : ℚ) : ℚ :=
  (1 / (E : ℚ)) * (din_nb - din_own) -
    (vertex_degree / (2 * (E : ℚ) ^ 2)) *
      (vertex_degree + nb_tot - own_tot)

/-- **C5** (confirmed).  The delta computed by the local-move engine for a
candidate neighboring community is exactly the spec's formula, and both
operating modes score candidates with the very same `delta` definition:
`first_phase` and `second_phase` are the one engine `localMove` (whose
candidate scan `scanCandidates` invokes `delta`), instantiated with the
store's unit-weight neighbor lists resp. the coarsened graph's weighted
adjacency. -/
theorem claim5_delta_formula :
    (∀ (E : ℕ) (d a b t1 t2 : ℚ),
        delta E d a b t1 t2 = delta_spec E d a b t1 t2) ∧
    (∀ (fuel : ℕ) (store : StoreGraph) (st : LMState) (E : ℕ),
        first_phase fuel store st E =
          localMove fuel E store.vertices
            (fun v => (store.neighbors v).map (fun n => (n, (1 : ℚ)))) st false) ∧
    (∀ (fuel : ℕ) (g : Graph) (st : LMState) (E : ℕ),
        second_phase fuel g st E =
          localMove fuel E (mkeys g) (fun v => mgetD g v []) st false) := by
  refine ⟨fun E d a b t1 t2 => ?_, fun _ _ _ _ => rfl, fun _ _ _ _ => rfl⟩
  unfold delta delta_spec
  push_cast
  ring

/-! ## Claim C3: the modularity evaluator -/

/-- The distinct communities referenced by a partition, in first-appearance
order. -/
def partitionCommunities (p : Map Key) : List Key :=
  (p.map (·.2)).dedup

/-- Modelled from the spec's words (§4.4 and claim C3): `Q =
Σ_over_communities [ (total_degree - internal_degree)/m -
(degree_sum^2)/(m^2) ]` with `m = degree_sum / 2`, each community of the
partition contributing exactly one term. -/
def modularity_spec_per_community (p : Map Key) (cd : Map CommunityDegree)
    (deg_sum : ℚ) : ℚ :=
  let m := deg_sum / 2
  ((partitionCommunities p).map (fun c =>
    ((mgetD cd c CommunityDegree.zero).tot_degree -
        (mgetD cd c CommunityDegree.zero).in_degree) / m -
      deg_sum ^ 2 / m ^ 2)).sum

/-- The fold of `modularity`, when every referenced community is present,
accumulates one term per partition entry. -/
theorem modularity_eq_sum (p : Map Key) (cd : Map CommunityDegree)
    (deg_sum : ℚ)
    (h : ∀ vc ∈ p, (mfind? cd vc.2).isSome) :
    modularity p cd deg_sum =
      some ((p.map (fun vc =>
        ((mgetD cd vc.2 CommunityDegree.zero).tot_degree -
            (mgetD cd vc.2 CommunityDegree.zero).in_degree) / (deg_sum / 2) -
          deg_sum * deg_sum * (1 / (deg_sum / 2 * (deg_sum / 2))))).sum) := by
  unfold modularity
  simp only [Option.bind_eq_bind, Option.pure_def]
  suffices H : ∀ (q : List (Key × Key)), (∀ vc ∈ q, (mfind? cd vc.2).isSome) →
      ∀ (r : ℚ),
      q.foldl
        (fun acc vc =>
          acc.bind fun r =>
            (mfind? cd vc.2).bind fun c =>
              some (r + ((c.tot_degree - c.in_degree) / (deg_sum / 2) -
                deg_sum * deg_sum * (1 / (deg_sum / 2 * (deg_sum / 2))))))
        (some r) =
      some (r + (q.map (fun vc =>
        ((mgetD cd vc.2 CommunityDegree.zero).tot_degree -
            (mgetD cd vc.2 CommunityDegree.zero).in_degree) / (deg_sum / 2) -
          deg_sum * deg_sum * (1 / (deg_sum / 2 * (deg_sum / 2))))).sum) by
    simpa using H p h 0
  intro q
  induction q with
  | nil => intro _ r; simp
  | cons vc rest ih =>
      intro hq r
      have hvc := hq vc (by simp)
      obtain ⟨c, hc⟩ := Option.isSome_iff_exists.mp hvc
      have hrest : ∀ x ∈ rest, (mfind? cd x.2).isSome := by
        intro x hx; exact hq x (by simp [hx])
      simp only [List.foldl_cons, List.map_cons, List.sum_cons, hc,
        Option.some_bind]
      rw [ih hrest]
      have hcd : mgetD cd vc.2 CommunityDegree.zero = c := by
        simp [mgetD, hc]
      rw [hcd]
      congr 1
      ring

/-- **C3 counterexample**: with partition `{1 ↦ 1, 2 ↦ 1}` (two vertices,
one community), stats `{1 ↦ (in 0, tot 2)}` and `degree_sum = 2`
(`m = 1`), the code returns `(2-0)/1 - 4` **twice** (once per vertex),
i.e. `-4`, while the claimed per-community sum has the single term `-2`:
`modularity` sums one term per partition entry, not per community. -/
theorem claim3_counterexample :
    modularity [(1, 1), (2, 1)] [(1, ⟨0, 2⟩)] 2 = some (-4) ∧
    modularity_spec_per_community [(1, 1), (2, 1)] [(1, ⟨0, 2⟩)] 2 = -2 ∧
    ((-4 : ℚ) ≠ -2) := by
  refine ⟨?_, ?_, by norm_num⟩
  · norm_num [modularity, mfind?]
  · norm_num [modularity_spec_per_community, partitionCommunities,
      List.dedup, mgetD, mfind?, List.pwFilter]

/-- **C3 amended** (proved): the evaluator returns
`Q = Σ_over_partition_entries [ (total_degree - internal_degree)/m -
(degree_sum^2)/(m^2) ]` with `m = degree_sum / 2` — one term per **vertex**
(partition entry), so a community with k members contributes k identical
terms — provided every referenced community is present in the stats
(otherwise `.at` raises). -/
theorem claim3_amended (p : Map Key) (cd : Map CommunityDegree)
    (deg_sum : ℚ)
    (h : ∀ vc ∈ p, (mfind? cd vc.2).isSome) :
    modularity p cd deg_sum =
      some ((p.map (fun vc =>
        ((mgetD cd vc.2 CommunityDegree.zero).tot_degree -
            (mgetD cd vc.2 CommunityDegree.zero).in_degree) / (deg_sum / 2) -
          deg_sum ^ 2 / (deg_sum / 2) ^ 2)).sum) := by
  rw [modularity_eq_sum p cd deg_sum h]
  congr 1
  apply congrArg
  apply List.map_congr_left
  intro vc _
  ring_nf

/-- Witness for `claim3_amended` at a concrete input. -/
theorem claim3_witness :
    modularity [(1, 1), (2, 1)] [(1, ⟨0, 2⟩)] 2 =
      some ((([(1, 1), (2, 1)] : Map Key).map (fun vc =>
        ((mgetD [(1, ⟨0, 2⟩)] vc.2 CommunityDegree.zero).tot_degree -
            (mgetD [(1, ⟨0, 2⟩)] vc.2 CommunityDegree.zero).in_degree) / ((2 : ℚ) / 2) -
          (2 : ℚ) ^ 2 / ((2 : ℚ) / 2) ^ 2)).sum) :=
  claim3_amended [(1, 1), (2, 1)] [(1, ⟨0, 2⟩)] 2
    (by
      intro vc hvc
      simp only [List.mem_cons, List.not_mem_nil, or_false] at hvc
      rcases hvc with h | h <;> subst h <;> simp [mfind?])

/-! ## Claim C2: degree conservation across accepted moves -/

/-- Sum of a rational-valued projection over all entries of a statistics
map. -/
def sumBy (g : CommunityDegree → ℚ) (cd : Map CommunityDegree) : ℚ :=
  (cd.map (fun e => g e.2)).sum

/-- Sum `Σ total_degree` over the community statistics. -/
def sumTot (cd : Map CommunityDegree) : ℚ := sumBy (·.tot_degree) cd

/-- Sum `Σ internal_degree` over the community statistics. -/
def sumIn (cd : Map CommunityDegree) : ℚ := sumBy (·.in_degree) cd

/-- Sum `Σ degree` over the vertex degree map. -/
def sumDeg (d : Map ℚ) : ℚ := (d.map (·.2)).sum

theorem sumBy_mset_of_mfind? (g : CommunityDegree → ℚ)
    (cd : Map CommunityDegree) (k : Key) (v w : CommunityDegree)
    (h : mfind? cd k = some v) :
    sumBy g (mset cd k w) = sumBy g cd - g v + g w := by
  induction cd with
  | nil => simp [mfind?] at h
  | cons e rest ih =>
      by_cases he : e.1 = k
      · simp only [mfind?, he, if_true] at h
        have hv : e.2 = v := by injection h
        subst hv
        simp [mset, he, sumBy]
        ring
      · simp only [mfind?, he, if_false] at h
        simp only [mset, he, if_false, sumBy, List.map_cons, List.sum_cons]
        have := ih h
        simp only [sumBy] at this
        rw [this]
        ring

theorem sumBy_append (g : CommunityDegree → ℚ) (cd cd' : Map CommunityDegree) :
    sumBy g (cd ++ cd') = sumBy g cd + sumBy g cd' := by
  simp [sumBy]

/-- Effect of one read-modify-write on a statistics sum: if the update
shifts the projection by a constant `δ` and the default projects to `0`,
the sum shifts by `δ` whether or not the key was present. -/
theorem sumBy_mmodI (g : CommunityDegree → ℚ) (cd : Map CommunityDegree)
    (k : Key) (d : CommunityDegree) (f : CommunityDegree → CommunityDegree)
    (δ : ℚ) (hd : g d = 0) (hf : ∀ x, g (f x) = g x + δ) :
    sumBy g (mmodI cd k d f) = sumBy g cd + δ := by
  unfold mmodI mgetI
  cases hfind : mfind? cd k with
  | some v =>
      simp only
      rw [sumBy_mset_of_mfind? g cd k v (f v) hfind, hf]
      ring
  | none =>
      simp only
      have hset : mset (cd ++ [(k, d)]) k (f d) = cd ++ [(k, f d)] := by
        clear hf
        induction cd with
        | nil => simp [mset]
        | cons e rest ih =>
            simp only [mfind?] at hfind
            by_cases he : e.1 = k
            · simp [he] at hfind
            · simp only [List.cons_append, mset, he, if_false,
                List.cons.injEq, true_and]
              exact ih (by simpa [he] using hfind)
      rw [hset, sumBy_append]
      simp [sumBy, hf, hd]

/-- **C2 counterexample**: the store is the 2-vertex path `1 — 2` (one
edge, both degrees 1).  `first_phase` accepts one move (vertex 1 joins
community 2); afterwards `Σ total_degree = 1` while `Σ vertex degree = 2`:
the accepted move does **not** preserve degree conservation.  (The sum
`Σ (total_degree + internal_degree) = 2` is what is preserved.) -/
theorem claim2_counterexample :
    first_phase 5
      ⟨[1, 2], (fun v => if v = 1 then [2] else if v = 2 then [1] else []),
        (fun v => if v = 1 then 1 else if v = 2 then 1 else 0), 1⟩
      ⟨[(1, 1), (2, 2)], [(1, 1), (2, 1)], [(1, ⟨0, 1⟩), (2, ⟨0, 1⟩)]⟩ 1 =
      some (⟨[(1, 2), (2, 2)], [(1, 1), (2, 1)],
        [(1, ⟨0, 0⟩), (2, ⟨1, 1⟩)]⟩, true) ∧
    sumTot [(1, ⟨0, 0⟩), (2, ⟨1, 1⟩)] = 1 ∧
    sumDeg [(1, 1), (2, 1)] = 2 ∧
    ((1 : ℚ) ≠ 2) := by
  refine ⟨?_, by norm_num [sumTot, sumBy], by norm_num [sumDeg], by norm_num⟩
  have hs1 : sweep 1 [1, 2]
      (fun v => ((if v = 1 then [2] else if v = 2 then [1] else []).map
        (fun n => (n, (1 : ℚ)))))
      ⟨[(1, 1), (2, 2)], [(1, 1), (2, 1)], [(1, ⟨0, 1⟩), (2, ⟨0, 1⟩)]⟩ =
      (⟨[(1, 2), (2, 2)], [(1, 1), (2, 1)],
        [(1, ⟨0, 0⟩), (2, ⟨1, 1⟩)]⟩, true) := by
    norm_num [sweep, processVertex, tallyNeighbors, scanCandidates,
      applyMove, delta, mgetI, mgetD, mset, mfind?, maddD, mmodI,
      CommunityDegree.zero]
  have hs2 : sweep 1 [1, 2]
      (fun v => ((if v = 1 then [2] else if v = 2 then [1] else []).map
        (fun n => (n, (1 : ℚ)))))
      ⟨[(1, 2), (2, 2)], [(1, 1), (2, 1)], [(1, ⟨0, 0⟩), (2, ⟨1, 1⟩)]⟩ =
      (⟨[(1, 2), (2, 2)], [(1, 1), (2, 1)],
        [(1, ⟨0, 0⟩), (2, ⟨1, 1⟩)]⟩, false) := by
    norm_num [sweep, processVertex, tallyNeighbors, scanCandidates,
      applyMove, delta, mgetI, mgetD, mset, mfind?, maddD, mmodI,
      CommunityDegree.zero]
  show localMove 5 1 [1, 2] _ _ false = _
  rw [show (5 : ℕ) = 4 + 1 from rfl]
  unfold localMove
  rw [hs1]
  simp only [if_true]
  rw [show (4 : ℕ) = 3 + 1 from rfl]
  unfold localMove
  rw [hs2]
  simp only [Bool.false_eq_true, if_false]

/-- **C2 amended** (proved): an accepted move (`applyMove`, the update
block of lines 79-88 / 139-148) changes `Σ total_degree` by exactly
`vertex_in_vertex_com_degree - vertex_in_best_com_degree` — so it
preserves it only when the vertex has equal edge weight into the old and
the new community — while the combination
`Σ (total_degree + internal_degree)` is preserved by **every** accepted
move. -/
theorem claim2_amended (cd : Map CommunityDegree) (vcom bestCom : Key)
    (vdeg dInOwn dInBest : ℚ) :
    sumTot (applyMove cd vcom bestCom vdeg dInOwn dInBest) =
      sumTot cd + (dInOwn - dInBest) ∧
    sumTot (applyMove cd vcom bestCom vdeg dInOwn dInBest) +
        sumIn (applyMove cd vcom bestCom vdeg dInOwn dInBest) =
      sumTot cd + sumIn cd := by
  have htot : sumTot (applyMove cd vcom bestCom vdeg dInOwn dInBest) =
      sumTot cd + (dInOwn - dInBest) := by
    unfold applyMove sumTot
    rw [sumBy_mmodI _ _ _ _ _ 0 rfl (fun x => by simp),
      sumBy_mmodI _ _ _ _ _ 0 rfl (fun x => by simp),
      sumBy_mmodI _ _ _ _ _ (vdeg - dInBest) rfl (fun x => by simp),
      sumBy_mmodI _ _ _ _ _ (-(vdeg - dInOwn)) rfl (fun x => by simp; ring)]
    ring
  have hin : sumIn (applyMove cd vcom bestCom vdeg dInOwn dInBest) =
      sumIn cd + (dInBest - dInOwn) := by
    unfold applyMove sumIn
    rw [sumBy_mmodI _ _ _ _ _ dInBest rfl (fun x => by simp),
      sumBy_mmodI _ _ _ _ _ (-dInOwn) rfl (fun x => by simp; ring),
      sumBy_mmodI _ _ _ _ _ 0 rfl (fun x => by simp),
      sumBy_mmodI _ _ _ _ _ 0 rfl (fun x => by simp)]
    ring
  exact ⟨htot, by rw [htot, hin]; ring⟩

/-! ## Claim C4: the multilevel driver's stop/accept decision -/

/-- **C4** (confirmed).  One iteration of the driver loop (lines 235-263),
entered with `improvement = true`: after running the in-memory phase and
evaluating `new_mod`, (a) if `new_mod - mod ≤ min_modularity_growth` the
loop stops and returns the partition stack **unchanged** (this level's
partition is not pushed, so the last previously pushed partition remains
the finest accepted level); (b) otherwise the next coarsened graph is
induced, the partition is pushed, and the loop continues with
`mod = new_mod`; and (c) the default threshold is `1e-7` (line 204). -/
theorem claim4_driver_step (fuel pf : ℕ) (g : Graph) (parts : List (Map Key))
    (mod min_growth : ℚ) (dz : Bool)
    (st : LMState) (ds : ℤ) (ce : ℕ) (hinit : levelInit g = (st, ds, ce))
    (st' : LMState) (imp' : Bool)
    (hphase : second_phase pf g st (ce / 2) = some (st', imp'))
    (new_mod : ℚ)
    (hmod : modularity st'.partition st'.community_degrees
      ((intDivTrunc ds 2 : ℤ) : ℚ) = some new_mod) :
    (new_mod - mod ≤ min_growth →
      driverLoop (fuel + 1) pf g parts mod true min_growth dz =
        some (parts,
          dz || modularity_div_zero ((intDivTrunc ds 2 : ℤ) : ℚ))) ∧
    (¬ new_mod - mod ≤ min_growth →
      ∀ g', induce_community_graph_mem g st'.partition = some g' →
        driverLoop (fuel + 1) pf g parts mod true min_growth dz =
          driverLoop fuel pf g' (st'.partition :: parts) new_mod imp'
            min_growth
            (dz || modularity_div_zero ((intDivTrunc ds 2 : ℤ) : ℚ))) ∧
    min_modularity_growth_default = 1 / 10000000 := by
  refine ⟨?_, ?_, rfl⟩
  · intro hle
    simp only [driverLoop, if_true, hinit, hphase, Option.bind_eq_bind,
      Option.some_bind, hmod, hle, if_pos, Option.pure_def]
  · intro hgt g' hg'
    simp only [driverLoop, if_true, hinit, hphase, Option.bind_eq_bind,
      Option.some_bind, hmod, hgt, if_neg, hg', Option.pure_def, if_false]

/-- Witness for `claim4_driver_step` on the empty coarsened graph: the
phase reports no change, `new_mod = 0 = mod`, the threshold test fires,
and the loop returns the stack `[[(7, 7)]]` unchanged (with the
division-by-zero flag set, since `degree_sum = 0` here). -/
theorem claim4_witness :
    driverLoop 1 1 ([] : Graph) [[(7, 7)]] 0 true
      min_modularity_growth_default false = some ([[(7, 7)]], true) := by
  have h := (claim4_driver_step 0 1 ([] : Graph) [[(7, 7)]] 0
    min_modularity_growth_default false ⟨[], [], []⟩ 0 0 rfl ⟨[], [], []⟩
    false rfl 0 rfl).1
    (by norm_num [min_modularity_growth_default])
  rw [h]
  norm_num [modularity_div_zero, intDivTrunc, truncQ]

/-! ## Claim C9: flattening default-inserts community 0 -/

/-- The key `c` is either absent or was default-inserted with value `0`. -/
def ZeroAtDefault (p : Map Key) (c : Key) : Prop :=
  mfind? p c = none ∨ mfind? p c = some 0

theorem zeroAtDefault_mgetI (p : Map Key) (x c : Key)
    (h : ZeroAtDefault p c) : ZeroAtDefault (mgetI p x 0).2 c := by
  unfold mgetI
  cases hf : mfind? p x with
  | some v => exact h
  | none =>
      rcases h with h | h
      · by_cases hxc : c = x
        · subst hxc
          right
          rw [mfind?_append, h]
          simp [mfind?]
        · left
          rw [mfind?_append, h]
          simp [mfind?, Ne.symm hxc]
      · right
        rw [mfind?_append, h]
        simp

theorem mgetI_fst_zeroAtDefault (p : Map Key) (c : Key)
    (h : ZeroAtDefault p c) : (mgetI p c 0).1 = 0 := by
  rw [mgetI_fst]
  rcases h with h | h <;> simp [mgetD, h]

theorem flattenStep_fold_preserves (v : Key) :
    ∀ (l : List (Key × Key)) (acc part : Map Key),
      (∀ e ∈ l, e.1 ≠ v) →
      mfind? (l.foldl (fun acc vc =>
        (mset acc.1 vc.1 (mgetI acc.2 vc.2 0).1, (mgetI acc.2 vc.2 0).2))
        (acc, part)).1 v = mfind? acc v := by
  intro l
  induction l with
  | nil => intro acc part _; rfl
  | cons e rest ih =>
      intro acc part hne
      simp only [List.foldl_cons]
      rw [ih _ _ (fun x hx => hne x (by simp [hx]))]
      exact mfind?_mset_ne _ _ _ _ (Ne.symm (hne e (by simp)))

theorem flattenStep_fold_zero (v c : Key) :
    ∀ (l : List (Key × Key)) (acc part : Map Key),
      (v, c) ∈ l → (mkeys l).Nodup → ZeroAtDefault part c →
      mfind? (l.foldl (fun acc vc =>
        (mset acc.1 vc.1 (mgetI acc.2 vc.2 0).1, (mgetI acc.2 vc.2 0).2))
        (acc, part)).1 v = some 0 := by
  intro l
  induction l with
  | nil => intro acc part hmem; simp at hmem
  | cons e rest ih =>
      intro acc part hmem hnd hzero
      simp only [mkeys_cons, List.nodup_cons] at hnd
      rcases List.mem_cons.mp hmem with he | he
      · subst he
        simp only [List.foldl_cons]
        rw [flattenStep_fold_preserves v rest _ _
          (fun x hx hxv => hnd.1 (by
            have : x.1 ∈ mkeys rest := List.mem_map.mpr ⟨x, hx, rfl⟩
            rwa [hxv] at this))]
        simp only [mgetI_fst_zeroAtDefault part c hzero]
        exact mfind?_mset_self _ _ _
      · simp only [List.foldl_cons]
        exact ih _ _ he hnd.2 (zeroAtDefault_mgetI part e.2 c hzero)

/-- **C9** (confirmed).  During flattening (lines 266-270), a vertex `v`
whose community `c` at the finer level is not a key of the coarser
composed partition gets the default-constructed community id `0`:
`partition[c]` default-inserts `(c, 0)` and returns `0`, which is then
assigned to `v`.  (This situation arises for every community all of whose
edges are intra-community, because both `induce_community_graph` variants
skip such edges — lines 177-178 / 194-195 — so the community never
becomes a vertex of the coarsened graph and hence is no key of any
coarser partition.) -/
theorem claim9_flatten_default_zero (partition pi : Map Key) (v c : Key)
    (hmem : (v, c) ∈ pi) (hnd : (mkeys pi).Nodup)
    (habs : mfind? partition c = none) :
    mfind? (flattenStep partition pi).1 v = some 0 := by
  unfold flattenStep
  exact flattenStep_fold_zero v c pi pi partition hmem hnd (Or.inl habs)

/-- Witness for `claim9_flatten_default_zero`: composing the one-entry
finer partition `{1 ↦ 2}` through the coarser partition `{5 ↦ 7}` (which
has no key `2`) rewrites vertex 1 to community `0`. -/
theorem claim9_witness : mfind? (flattenStep [(5, 7)] [(1, 2)]).1 1 = some 0 :=
  claim9_flatten_default_zero [(5, 7)] [(1, 2)] 1 2 (by decide)
    (by decide) (by decide)

/-! ## Shared lemmas: the initial state, and sweeps over isolated vertices -/

theorem mgetI_snd_of_mem {α : Type} (m : Map α) (k : Key) (d : α)
    (h : k ∈ mkeys m) : (mgetI m k d).2 = m := by
  unfold mgetI
  cases hf : mfind? m k with
  | some v => rfl
  | none =>
      have := mfind?_isSome_of_mem_mkeys m k h
      rw [hf] at this
      simp at this

theorem initState_partition (store : StoreGraph) :
    (initState store).partition =
      store.vertices.foldl (fun m v => mset m v v) [] := by
  unfold initState
  suffices H : ∀ (l : List Key) (st : LMState),
      (l.foldl (fun st v =>
        { partition := mset st.partition v v,
          degrees := mset st.degrees v (store.degree v),
          community_degrees :=
            mset st.community_degrees v ⟨0, store.degree v⟩ }) st).partition =
      l.foldl (fun m v => mset m v v) st.partition by
    exact H store.vertices ⟨[], [], []⟩
  intro l
  induction l with
  | nil => intro st; rfl
  | cons x rest ih => intro st; simp only [List.foldl_cons, ih]

theorem initState_degrees (store : StoreGraph) :
    (initState store).degrees =
      store.vertices.foldl (fun m v => mset m v (store.degree v)) [] := by
  unfold initState
  suffices H : ∀ (l : List Key) (st : LMState),
      (l.foldl (fun st v =>
        { partition := mset st.partition v v,
          degrees := mset st.degrees v (store.degree v),
          community_degrees :=
            mset st.community_degrees v ⟨0, store.degree v⟩ }) st).degrees =
      l.foldl (fun m v => mset m v (store.degree v)) st.degrees by
    exact H store.vertices ⟨[], [], []⟩
  intro l
  induction l with
  | nil => intro st; rfl
  | cons x rest ih => intro st; simp only [List.foldl_cons, ih]

theorem initState_community_degrees (store : StoreGraph) :
    (initState store).community_degrees =
      store.vertices.foldl
        (fun m v => mset m v ⟨0, store.degree v⟩) [] := by
  unfold initState
  suffices H : ∀ (l : List Key) (st : LMState),
      (l.foldl (fun st v =>
        { partition := mset st.partition v v,
          degrees := mset st.degrees v (store.degree v),
          community_degrees :=
            mset st.community_degrees v ⟨0, store.degree v⟩ }) st).community_degrees =
      l.foldl (fun m v => mset m v ⟨0, store.degree v⟩) st.community_degrees by
    exact H store.vertices ⟨[], [], []⟩
  intro l
  induction l with
  | nil => intro st; rfl
  | cons x rest ih => intro st; simp only [List.foldl_cons, ih]

theorem mfind?_foldl_mset_not_mem {α : Type} (f : Key → α) (v : Key) :
    ∀ (l : List Key) (m : Map α), v ∉ l →
      mfind? (l.foldl (fun m x => mset m x (f x)) m) v = mfind? m v := by
  intro l
  induction l with
  | nil => intro m _; rfl
  | cons x rest ih =>
      intro m hv
      simp only [List.mem_cons] at hv
      push_neg at hv
      simp only [List.foldl_cons]
      rw [ih _ hv.2, mfind?_mset_ne _ _ _ _ hv.1]

theorem mfind?_foldl_mset_self {α : Type} (f : Key → α) (v : Key) :
    ∀ (l : List Key) (m : Map α), v ∈ l →
      mfind? (l.foldl (fun m x => mset m x (f x)) m) v = some (f v) := by
  intro l
  induction l with
  | nil => intro m hv; simp at hv
  | cons x rest ih =>
      intro m hv
      simp only [List.foldl_cons]
      by_cases hr : v ∈ rest
      · exact ih _ hr
      · have hx : v = x := by
          rcases List.mem_cons.mp hv with h | h
          · exact h
          · exact absurd h hr
        subst hx
        rw [mfind?_foldl_mset_not_mem f v rest _ hr, mfind?_mset_self]

theorem mem_mset {α : Type} (e : Key × α) :
    ∀ (m : Map α) (k : Key) (w : α), e ∈ mset m k w → e ∈ m ∨ e = (k, w) := by
  intro m
  induction m with
  | nil => intro k w h; simp [mset] at h; simp [h]
  | cons x rest ih =>
      intro k w h
      by_cases hk : x.1 = k
      · simp only [mset, hk, if_true, List.mem_cons] at h
        rcases h with h | h
        · right; exact h
        · left; simp [h]
      · simp only [mset, hk, if_false, List.mem_cons] at h
        rcases h with h | h
        · left; simp [h]
        · rcases ih k w h with h' | h'
          · left; simp [h']
          · right; exact h'

theorem mem_foldl_mset {α : Type} (f : Key → α) (e : Key × α) :
    ∀ (l : List Key) (m : Map α),
      e ∈ l.foldl (fun m x => mset m x (f x)) m →
      e ∈ m ∨ (e.1 ∈ l ∧ e.2 = f e.1) := by
  intro l
  induction l with
  | nil => intro m h; left; exact h
  | cons x rest ih =>
      intro m h
      simp only [List.foldl_cons] at h
      rcases ih _ h with h' | h'
      · rcases mem_mset e m x (f x) h' with h'' | h''
        · left; exact h''
        · subst h''
          right
          simp
      · right; exact ⟨by simp [h'.1], h'.2⟩

/-- A vertex with an empty adjacency list, present in all three maps, is
left exactly in place by the per-vertex step, with no move. -/
theorem processVertex_no_adj (E : ℕ) (adjOf : Key → List (Key × ℚ))
    (st : LMState) (v : Key) (hadj : adjOf v = [])
    (hdeg : v ∈ mkeys st.degrees) (hpart : v ∈ mkeys st.partition)
    (hcd : mgetD st.partition v 0 ∈ mkeys st.community_degrees) :
    processVertex E adjOf st v = (st, false) := by
  unfold processVertex
  simp only [hadj, tallyNeighbors, scanCandidates, List.foldl_nil,
    mgetI_snd_of_mem st.degrees v 0 hdeg,
    mgetI_snd_of_mem st.partition v 0 hpart, mgetI_fst st.partition v 0,
    mgetI_snd_of_mem st.community_degrees (mgetD st.partition v 0)
      CommunityDegree.zero hcd]
  simp

/-- A full sweep over isolated vertices (all adjacency lists empty) makes
no move and leaves the state unchanged. -/
theorem sweep_no_adj (E : ℕ) (adjOf : Key → List (Key × ℚ)) :
    ∀ (verts : List Key) (st : LMState),
      (∀ v ∈ verts, adjOf v = []) →
      (∀ v ∈ verts, v ∈ mkeys st.degrees) →
      (∀ v ∈ verts, v ∈ mkeys st.partition) →
      (∀ v ∈ verts, mgetD st.partition v 0 ∈ mkeys st.community_degrees) →
      sweep E verts adjOf st = (st, false) := by
  intro verts
  suffices H : ∀ (l : List Key) (st : LMState),
      (∀ v ∈ l, adjOf v = []) →
      (∀ v ∈ l, v ∈ mkeys st.degrees) →
      (∀ v ∈ l, v ∈ mkeys st.partition) →
      (∀ v ∈ l, mgetD st.partition v 0 ∈ mkeys st.community_degrees) →
      l.foldl (fun acc v =>
        let (st', moved) := processVertex E adjOf acc.1 v
        (st', acc.2 || moved)) (st, false) =
      (st, false) by
    intro st h1 h2 h3 h4
    exact H verts st h1 h2 h3 h4
  intro l
  induction l with
  | nil => intro st _ _ _ _; rfl
  | cons x rest ih =>
      intro st h1 h2 h3 h4
      simp only [List.foldl_cons,
        processVertex_no_adj E adjOf st x (h1 x (by simp))
          (h2 x (by simp)) (h3 x (by simp)) (h4 x (by simp)),
        Bool.or_false]
      exact ih st (fun v hv => h1 v (by simp [hv]))
        (fun v hv => h2 v (by simp [hv])) (fun v hv => h3 v (by simp [hv]))
        (fun v hv => h4 v (by simp [hv]))

/-! ## Claim C8: no level-0 improvement means the driver returns the
level-0 partition -/

/-- **C8** (confirmed).  When `first_phase` reports no improvement, the
driver's `while` loop never runs: the partition stack stays `[p₀]` and
the flattening returns `p₀` — the level-0 partition — exactly.  (The
modularity and induction of lines 231-232 still execute before the loop,
hence the two `Option` hypotheses.) -/
theorem claim8_single_level (store : StoreGraph) (min_growth : ℚ)
    (pf lf : ℕ) (st1 : LMState)
    (hphase : first_phase pf store (initState store) store.count_edges =
      some (st1, false))
    (q : ℚ) (hmod : modularity st1.partition st1.community_degrees
      (store.count_edges : ℚ) = some q)
    (g : Graph)
    (hind : induce_community_graph_store store st1.partition = some g) :
    best_partition store min_growth pf (lf + 1) =
      some (st1.partition,
        modularity_div_zero (store.count_edges : ℚ)) := by
  unfold best_partition
  simp only [hphase, Option.bind_eq_bind, Option.some_bind, hmod, hind,
    driverLoop, Bool.false_eq_true, if_false, Option.pure_def,
    Option.some_bind, flatten, flattenGo]

/-- Witness for `claim8_single_level`: a store holding the single isolated
vertex 1.  `first_phase` finds nothing to move, and the driver returns the
level-0 partition `{1 ↦ 1}` unchanged. -/
theorem claim8_witness :
    best_partition ⟨[1], fun _ => [], fun _ => 0, 0⟩
      min_modularity_growth_default 1 1 = some ([(1, 1)], true) := by
  have h := claim8_single_level ⟨[1], fun _ => [], fun _ => 0, 0⟩
    min_modularity_growth_default 1 0 ⟨[(1, 1)], [(1, 0)], [(1, ⟨0, 0⟩)]⟩
    (by
      norm_num [first_phase, localMove, sweep, processVertex, tallyNeighbors,
        scanCandidates, initState, mgetI, mgetD, mset, mfind?,
        CommunityDegree.zero])
    0 (by norm_num [modularity, mfind?]) []
    (by norm_num [induce_community_graph_store, mfind?])
  rw [h]
  norm_num [modularity_div_zero]

/-! ## Claim C1: graphs with zero edges -/

/-- Inducing from a store whose streamed vertices all have empty neighbor
lists yields the empty coarsened graph (provided every vertex is in the
partition, as `.at` requires). -/
theorem induce_store_no_edges (store : StoreGraph) (p : Map Key)
    (hnb : ∀ v ∈ store.vertices, store.neighbors v = [])
    (hp : ∀ v ∈ store.vertices, (mfind? p v).isSome) :
    induce_community_graph_store store p = some [] := by
  unfold induce_community_graph_store
  suffices H : ∀ (l : List Key), (∀ v ∈ l, store.neighbors v = []) →
      (∀ v ∈ l, (mfind? p v).isSome) →
      l.foldl (fun acc v => do
        let g ← acc
        let vcom ← mfind? p v
        (store.neighbors v).foldl (fun acc2 n => do
          let g2 ← acc2
          let ncom ← mfind? p n
          if vcom = ncom then pure g2 else pure (gAdd g2 vcom ncom 1))
          (pure g)) (some []) = some [] by
    exact H store.vertices hnb hp
  intro l
  induction l with
  | nil => intro _ _; rfl
  | cons x rest ih =>
      intro h1 h2
      simp only [List.foldl_cons]
      obtain ⟨c, hc⟩ := Option.isSome_iff_exists.mp (h2 x (by simp))
      simp only [h1 x (by simp), hc, Option.bind_eq_bind, Option.some_bind,
        List.foldl_nil, Option.pure_def]
      exact ih (fun v hv => h1 v (by simp [hv]))
        (fun v hv => h2 v (by simp [hv]))

/-- **C1 amended** (proved): `best_partition` has **no** zero-edge
short-circuit.  On a consistent store with `edge_count = 0` (every
neighbor list empty) the normal code path runs: no vertex can move, the
driver loop is never entered, and the identity partition is returned —
but the `modularity` call of line 231 still evaluates
`norm = 1.0 / (m * m)` with `m = count_edges / 2 = 0`, i.e. the run
**does** perform a division by zero (recorded as the `true` flag; under
IEEE arithmetic it yields `inf`/`NaN` in a value that is never used, not
a failure). -/
theorem claim1_amended (store : StoreGraph) (min_growth : ℚ) (pf lf : ℕ)
    (hnb : ∀ v ∈ store.vertices, store.neighbors v = [])
    (hE : store.count_edges = 0) :
    best_partition store min_growth (pf + 1) (lf + 1) =
      some ((initState store).partition, true) ∧
    ∀ v ∈ store.vertices, mfind? (initState store).partition v = some v := by
  have hfp : ∀ v ∈ store.vertices,
      mfind? (initState store).partition v = some v := by
    intro v hv
    rw [initState_partition]
    exact mfind?_foldl_mset_self (fun x => x) v store.vertices [] hv
  have hfd : ∀ v ∈ store.vertices,
      mfind? (initState store).degrees v = some (store.degree v) := by
    intro v hv
    rw [initState_degrees]
    exact mfind?_foldl_mset_self (fun x => store.degree x) v store.vertices [] hv
  have hfc : ∀ v ∈ store.vertices,
      mfind? (initState store).community_degrees v =
        some ⟨0, store.degree v⟩ := by
    intro v hv
    rw [initState_community_degrees]
    exact mfind?_foldl_mset_self (fun x => (⟨0, store.degree x⟩ : CommunityDegree))
      v store.vertices [] hv
  refine ⟨?_, hfp⟩
  have hadj : ∀ v ∈ store.vertices,
      ((store.neighbors v).map (fun n => (n, (1 : ℚ)))) = [] := by
    intro v hv; rw [hnb v hv]; rfl
  have hsweep : sweep store.count_edges store.vertices
      (fun v => (store.neighbors v).map (fun n => (n, (1 : ℚ))))
      (initState store) = (initState store, false) := by
    apply sweep_no_adj
    · exact hadj
    · intro v hv
      exact mem_mkeys_of_mfind?_isSome _ _ (by rw [hfd v hv]; rfl)
    · intro v hv
      exact mem_mkeys_of_mfind?_isSome _ _ (by rw [hfp v hv]; rfl)
    · intro v hv
      have : mgetD (initState store).partition v 0 = v := by
        simp [mgetD, hfp v hv]
      rw [this]
      exact mem_mkeys_of_mfind?_isSome _ _ (by rw [hfc v hv]; rfl)
  have hphase : first_phase (pf + 1) store (initState store)
      store.count_edges = some (initState store, false) := by
    unfold first_phase localMove
    rw [hsweep]
    simp
  have hpres : ∀ vc ∈ (initState store).partition,
      (mfind? (initState store).community_degrees vc.2).isSome := by
    intro vc hvc
    rw [initState_partition] at hvc
    rcases mem_foldl_mset (fun x => x) vc store.vertices [] hvc with h | h
    · simp at h
    · rw [h.2, hfc vc.1 h.1]; rfl
  have hmod := modularity_eq_sum (initState store).partition
    (initState store).community_degrees (store.count_edges : ℚ) hpres
  have hind := induce_store_no_edges store (initState store).partition hnb
    (fun v hv => by rw [hfp v hv]; rfl)
  unfold best_partition
  simp only [hphase, Option.bind_eq_bind, Option.some_bind, hmod, hind,
    driverLoop, Bool.false_eq_true, if_false, Option.pure_def,
    Option.some_bind, flatten, flattenGo, Option.some.injEq, Prod.mk.injEq,
    true_and]
  simp [modularity_div_zero, hE]

/-- **C1 counterexample**: the claim asserts a short-circuit that "never
performs a division by zero".  On the store with the single isolated
vertex 3 and `edge_count = 0`, the run's division-by-zero flag — which
records precisely the zero-denominator evaluation of
`norm = 1.0 / (m * m)` inside `modularity` (line 231, reached because no
short-circuit exists in `best_partition`) — comes back `true`. -/
theorem claim1_counterexample :
    (best_partition ⟨[3], fun _ => [], fun _ => 0, 0⟩
      min_modularity_growth_default 1 1).map Prod.snd = some true := by
  have h1 : first_phase 1 ⟨[3], fun _ => [], fun _ => 0, 0⟩
      ⟨[(3, 3)], [(3, 0)], [(3, ⟨0, 0⟩)]⟩ 0 =
      some (⟨[(3, 3)], [(3, 0)], [(3, ⟨0, 0⟩)]⟩, false) := by
    norm_num [first_phase, localMove, sweep, processVertex, tallyNeighbors,
      scanCandidates, mgetI, mgetD, mset, mfind?, CommunityDegree.zero]
  have h2 : modularity [(3, 3)] [(3, ⟨0, 0⟩)] ((0 : ℕ) : ℚ) = some 0 := by
    norm_num [modularity, mfind?]
  have h3 : induce_community_graph_store ⟨[3], fun _ => [], fun _ => 0, 0⟩
      [(3, 3)] = some [] := by
    norm_num [induce_community_graph_store, mfind?]
  have h0 : initState ⟨[3], fun _ => [], fun _ => 0, 0⟩ =
      ⟨[(3, 3)], [(3, 0)], [(3, ⟨0, 0⟩)]⟩ := by
    norm_num [initState, mset]
  unfold best_partition
  simp only [h0, h1, Option.bind_eq_bind, Option.some_bind, h2, h3,
    driverLoop, Bool.false_eq_true, if_false, Option.pure_def,
    Option.some_bind, flatten, flattenGo]
  norm_num [modularity_div_zero]

/-- Witness for `claim1_amended`: the store with isolated vertices 1 and 2
and `edge_count = 0` returns the identity partition `{1 ↦ 1, 2 ↦ 2}` (with
the division-by-zero flag set). -/
theorem claim1_witness :
    best_partition ⟨[1, 2], fun _ => [], fun _ => 0, 0⟩
      min_modularity_growth_default 3 3 =
      some ((initState ⟨[1, 2], fun _ => [], fun _ => 0, 0⟩).partition,
        true) ∧
    mfind? (initState ⟨[1, 2], fun _ => [], fun _ => 0, 0⟩).partition 2 =
      some 2 := by
  have h := claim1_amended ⟨[1, 2], fun _ => [], fun _ => 0, 0⟩
    min_modularity_growth_default 2 2 (by intro v _; rfl) rfl
  exact ⟨h.1, h.2 2 (by simp)⟩

/-! ## Claim C7: idempotence on locally optimal partitions -/

/-- The level-0 engine's adjacency view of the store: neighbor lists with
implicit unit weights (line 59). -/
def storeAdj (store : StoreGraph) : Key → List (Key × ℚ) :=
  fun v => (store.neighbors v).map (fun n => (n, (1 : ℚ)))

/-- The level-≥1 engine's adjacency view of a coarsened graph. -/
def memAdj (g : Graph) : Key → List (Key × ℚ) :=
  fun v => mgetD g v []

/-- The per-vertex community tally `degree_in_coms` (lines 56-59). -/
def dicOf (adj : List (Key × ℚ)) (part : Map Key) : Map ℚ :=
  (tallyNeighbors adj part).1

/-- Vertex `v` has no neighboring community with strictly positive
modularity delta (spec §8 "already-locally-optimal", expressed with the
engine's own quantities). -/
def NoPositiveDelta (E : ℕ) (adjOf : Key → List (Key × ℚ)) (st : LMState)
    (v : Key) : Prop :=
  ∀ nw ∈ adjOf v,
    mgetD st.partition nw.1 0 ≠ mgetD st.partition v 0 →
    delta E (mgetD st.degrees v 0)
      (mgetD (dicOf (adjOf v) st.partition) (mgetD st.partition nw.1 0) 0)
      (mgetD (dicOf (adjOf v) st.partition) (mgetD st.partition v 0) 0)
      (mgetD st.community_degrees (mgetD st.partition nw.1 0)
        CommunityDegree.zero).tot_degree
      (mgetD st.community_degrees (mgetD st.partition v 0)
        CommunityDegree.zero).tot_degree ≤ 0

/-- All keys the engine touches for the swept vertices are present (the
maps are fully initialized), so `operator[]` reads insert nothing. -/
def PresentKeys (verts : List Key) (adjOf : Key → List (Key × ℚ))
    (st : LMState) : Prop :=
  ∀ v ∈ verts,
    v ∈ mkeys st.degrees ∧ v ∈ mkeys st.partition ∧
    mgetD st.partition v 0 ∈ mkeys st.community_degrees ∧
    ∀ nw ∈ adjOf v, nw.1 ∈ mkeys st.partition ∧
      mgetD st.partition nw.1 0 ∈ mkeys st.community_degrees

theorem tallyNeighbors_fold_snd_of_present :
    ∀ (adj : List (Key × ℚ)) (dic : Map ℚ) (part : Map Key),
      (∀ nw ∈ adj, nw.1 ∈ mkeys part) →
      (adj.foldl (fun acc nw =>
        (maddD acc.1 (mgetI acc.2 nw.1 0).1 nw.2, (mgetI acc.2 nw.1 0).2))
        (dic, part)).2 = part := by
  intro adj
  induction adj with
  | nil => intro dic part _; rfl
  | cons nw rest ih =>
      intro dic part h
      simp only [List.foldl_cons,
        mgetI_snd_of_mem part nw.1 0 (h nw (by simp))]
      exact ih _ part (fun x hx => h x (by simp [hx]))

theorem tallyNeighbors_snd_of_present (adj : List (Key × ℚ)) (part : Map Key)
    (h : ∀ nw ∈ adj, nw.1 ∈ mkeys part) :
    (tallyNeighbors adj part).2 = part :=
  tallyNeighbors_fold_snd_of_present adj [] part h

theorem scanCandidates_stay (E : ℕ) (vcom : Key) (vdeg vctot dInOwn : ℚ)
    (dic : Map ℚ) :
    ∀ (adj : List (Key × ℚ)) (part : Map Key) (cd : Map CommunityDegree),
      (∀ nw ∈ adj, nw.1 ∈ mkeys part) →
      (∀ nw ∈ adj, mgetD part nw.1 0 ≠ vcom →
        mgetD part nw.1 0 ∈ mkeys cd) →
      (∀ nw ∈ adj, mgetD part nw.1 0 ≠ vcom →
        delta E vdeg (mgetD dic (mgetD part nw.1 0) 0) dInOwn
          (mgetD cd (mgetD part nw.1 0) CommunityDegree.zero).tot_degree
          vctot ≤ 0) →
      scanCandidates E adj vcom vdeg vctot dInOwn dic part cd =
        (0, vcom, part, cd) := by
  intro adj
  unfold scanCandidates
  induction adj with
  | nil => intro part cd _ _ _; rfl
  | cons nw rest ih =>
      intro part cd h1 h2 h3
      simp only [List.foldl_cons]
      have hsnd := mgetI_snd_of_mem part nw.1 0 (h1 nw (by simp))
      have hfst := mgetI_fst part nw.1 0
      by_cases hc : vcom = mgetD part nw.1 0
      · simp only [hsnd, hfst, ← hc, if_true]
        exact ih part cd (fun x hx => h1 x (by simp [hx]))
          (fun x hx => h2 x (by simp [hx])) (fun x hx => h3 x (by simp [hx]))
      · have hcsnd := mgetI_snd_of_mem cd (mgetD part nw.1 0)
          CommunityDegree.zero (h2 nw (by simp) (Ne.symm hc))
        have hcfst := mgetI_fst cd (mgetD part nw.1 0) CommunityDegree.zero
        have hd : ¬ (delta E vdeg (mgetD dic (mgetD part nw.1 0) 0) dInOwn
            (mgetD cd (mgetD part nw.1 0) CommunityDegree.zero).tot_degree
            vctot > 0) :=
          not_lt.mpr (h3 nw (by simp) (Ne.symm hc))
        simp only [hsnd, hfst, hc, if_false, hcsnd, hcfst, hd]
        exact ih part cd (fun x hx => h1 x (by simp [hx]))
          (fun x hx => h2 x (by simp [hx])) (fun x hx => h3 x (by simp [hx]))

/-- A vertex with no positive-delta neighboring community is left exactly
in place by the per-vertex step, with no move. -/
theorem processVertex_no_move (E : ℕ) (adjOf : Key → List (Key × ℚ))
    (st : LMState) (v : Key)
    (hdeg : v ∈ mkeys st.degrees) (hpart : v ∈ mkeys st.partition)
    (hcd : mgetD st.partition v 0 ∈ mkeys st.community_degrees)
    (hnb : ∀ nw ∈ adjOf v, nw.1 ∈ mkeys st.partition ∧
      mgetD st.partition nw.1 0 ∈ mkeys st.community_degrees)
    (hopt : NoPositiveDelta E adjOf st v) :
    processVertex E adjOf st v = (st, false) := by
  unfold processVertex
  have htally := tallyNeighbors_snd_of_present (adjOf v) st.partition
    (fun nw hnw => (hnb nw hnw).1)
  have hscan := scanCandidates_stay E (mgetD st.partition v 0)
    (mgetD st.degrees v 0)
    (mgetI st.community_degrees (mgetD st.partition v 0)
      CommunityDegree.zero).1.tot_degree
    (mgetD (tallyNeighbors (adjOf v) st.partition).1 (mgetD st.partition v 0) 0)
    (tallyNeighbors (adjOf v) st.partition).1
    (adjOf v) st.partition st.community_degrees
    (fun nw hnw => (hnb nw hnw).1)
    (fun nw hnw _ => (hnb nw hnw).2)
    (by
      intro nw hnw hne
      have := hopt nw hnw hne
      unfold dicOf at this
      rw [mgetI_fst st.community_degrees (mgetD st.partition v 0)
        CommunityDegree.zero]
      exact this)
  simp only [mgetI_snd_of_mem st.degrees v 0 hdeg,
    mgetI_snd_of_mem st.partition v 0 hpart, mgetI_fst st.partition v 0,
    mgetI_snd_of_mem st.community_degrees (mgetD st.partition v 0)
      CommunityDegree.zero hcd, mgetI_fst st.degrees v 0, htally, hscan]
  simp

/-- A sweep over a state where no vertex has a positive-delta candidate
makes no move and leaves the state unchanged. -/
theorem sweep_no_move (E : ℕ) (adjOf : Key → List (Key × ℚ)) :
    ∀ (verts : List Key) (st : LMState),
      PresentKeys verts adjOf st →
      (∀ v ∈ verts, NoPositiveDelta E adjOf st v) →
      sweep E verts adjOf st = (st, false) := by
  intro verts
  suffices H : ∀ (l : List Key) (st : LMState),
      PresentKeys l adjOf st →
      (∀ v ∈ l, NoPositiveDelta E adjOf st v) →
      l.foldl (fun acc v =>
        let (st', moved) := processVertex E adjOf acc.1 v
        (st', acc.2 || moved)) (st, false) =
      (st, false) by
    intro st h1 h2
    exact H verts st h1 h2
  intro l
  induction l with
  | nil => intro st _ _; rfl
  | cons x rest ih =>
      intro st h1 h2
      obtain ⟨ha, hb, hc, hd⟩ := h1 x (by simp)
      simp only [List.foldl_cons,
        processVertex_no_move E adjOf st x ha hb hc hd (h2 x (by simp)),
        Bool.or_false]
      exact ih st (fun v hv => h1 v (by simp [hv]))
        (fun v hv => h2 v (by simp [hv]))

/-- **C7** (confirmed).  Running either local-move engine on an
already-locally-optimal state (no vertex has a neighboring community with
strictly positive delta) performs zero moves: the single sweep changes
nothing, the `while (modified)` loop exits, the partition, degree and
community-degree maps are returned exactly unchanged, and the engine
reports `false` (no move across all sweeps). -/
theorem claim7_idempotent :
    (∀ (fuel : ℕ) (store : StoreGraph) (st : LMState) (E : ℕ),
      PresentKeys store.vertices (storeAdj store) st →
      (∀ v ∈ store.vertices, NoPositiveDelta E (storeAdj store) st v) →
      first_phase (fuel + 1) store st E = some (st, false)) ∧
    (∀ (fuel : ℕ) (g : Graph) (st : LMState) (E : ℕ),
      PresentKeys (mkeys g) (memAdj g) st →
      (∀ v ∈ mkeys g, NoPositiveDelta E (memAdj g) st v) →
      second_phase (fuel + 1) g st E = some (st, false)) := by
  constructor
  · intro fuel store st E h1 h2
    unfold first_phase localMove
    rw [show (fun v => (store.neighbors v).map (fun n => (n, (1 : ℚ)))) =
      storeAdj store from rfl]
    rw [sweep_no_move E (storeAdj store) store.vertices st h1 h2]
    simp
  · intro fuel g st E h1 h2
    unfold second_phase localMove
    rw [show (fun v => mgetD g v []) = memAdj g from rfl]
    rw [sweep_no_move E (memAdj g) (mkeys g) st h1 h2]
    simp

/-- Witness for `claim7_idempotent`: the 2-vertex path whose vertices have
both been merged into community 2 — every neighbor is in the vertex's own
community, so no candidate exists — is a fixed point of both engines. -/
theorem claim7_witness :
    first_phase 1
      ⟨[1, 2], (fun v => if v = 1 then [2] else if v = 2 then [1] else []),
        (fun v => if v = 1 then 1 else if v = 2 then 1 else 0), 1⟩
      ⟨[(1, 2), (2, 2)], [(1, 1), (2, 1)], [(1, ⟨0, 0⟩), (2, ⟨1, 1⟩)]⟩ 1 =
      some (⟨[(1, 2), (2, 2)], [(1, 1), (2, 1)],
        [(1, ⟨0, 0⟩), (2, ⟨1, 1⟩)]⟩, false) ∧
    second_phase 1 [(1, [(2, 1)]), (2, [(1, 1)])]
      ⟨[(1, 2), (2, 2)], [(1, 1), (2, 1)], [(1, ⟨0, 0⟩), (2, ⟨1, 1⟩)]⟩ 1 =
      some (⟨[(1, 2), (2, 2)], [(1, 1), (2, 1)],
        [(1, ⟨0, 0⟩), (2, ⟨1, 1⟩)]⟩, false) := by
  constructor
  · exact claim7_idempotent.1 0
      ⟨[1, 2], (fun v => if v = 1 then [2] else if v = 2 then [1] else []),
        (fun v => if v = 1 then 1 else if v = 2 then 1 else 0), 1⟩
      ⟨[(1, 2), (2, 2)], [(1, 1), (2, 1)], [(1, ⟨0, 0⟩), (2, ⟨1, 1⟩)]⟩ 1
      (by
        intro v hv
        fin_cases hv <;>
          refine ⟨by decide, by decide, by decide, ?_⟩ <;>
            (intro nw hnw;
             simp only [storeAdj, List.mem_map] at hnw;
             obtain ⟨n, hn, rfl⟩ := hnw;
             fin_cases hn <;> exact ⟨by decide, by decide⟩)
      )
      (by
        intro v hv
        intro nw hnw hne
        exfalso
        fin_cases hv <;>
          (simp only [storeAdj, List.mem_map] at hnw;
           obtain ⟨n, hn, rfl⟩ := hnw;
           fin_cases hn <;> revert hne <;> decide)
      )
  · exact claim7_idempotent.2 0 [(1, [(2, 1)]), (2, [(1, 1)])]
      ⟨[(1, 2), (2, 2)], [(1, 1), (2, 1)], [(1, ⟨0, 0⟩), (2, ⟨1, 1⟩)]⟩ 1
      (by
        intro v hv
        fin_cases hv <;>
          refine ⟨by decide, by decide, by decide, ?_⟩ <;>
            (intro nw hnw;
             simp only [memAdj, mgetD, mfind?] at hnw;
             norm_num at hnw;
             rw [hnw] <;> exact ⟨by decide, by decide⟩)
      )
      (by
        intro v hv
        intro nw hnw hne
        exfalso
        fin_cases hv <;>
          (simp only [memAdj, mgetD, mfind?] at hnw;
           norm_num at hnw;
           revert hne;
           rw [hnw]; decide)
      )

/-! ## Claim C6: internal_degree ≤ total_degree at every reachable state

The inductive invariant: for every community `c`,
`total_degree(c) - internal_degree(c)` equals the total weight of edges
leaving `c` (each member's degree minus its weight into `c`), computed
from the current partition.  It holds after initialization, is preserved
by every accepted move, and — the weights being nonnegative — implies
`internal_degree(c) ≤ total_degree(c)`. -/

/-- Weight of `u`'s adjacency entries pointing at `x` (multi-edges
summed). -/
def wA (adjOf : Key → List (Key × ℚ)) (u x : Key) : ℚ :=
  ((adjOf u).map (fun nw => if nw.1 = x then nw.2 else 0)).sum

/-- Total adjacency weight of `v`: the level's weighted degree. -/
def degA (adjOf : Key → List (Key × ℚ)) (v : Key) : ℚ :=
  ((adjOf v).map (·.2)).sum

/-- Weight from `v` into community `c` under the partition function `P`. -/
def adjWf (adjOf : Key → List (Key × ℚ)) (P : Key → Key) (v c : Key) : ℚ :=
  ((adjOf v).map (fun nw => if P nw.1 = c then nw.2 else 0)).sum

/-- Outgoing boundary weight of community `c`. -/
def outW (verts : List Key) (adjOf : Key → List (Key × ℚ)) (P : Key → Key)
    (c : Key) : ℚ :=
  (verts.map (fun v =>
    if P v = c then degA adjOf v - adjWf adjOf P v c else 0)).sum

/-- The partition map as a total function (`operator[]` semantics:
default `0`). -/
def Pfun (p : Map Key) : Key → Key := fun x => mgetD p x 0

/-- The statistics map as a total function (`operator[]` semantics:
default `{0, 0}`). -/
def CDfun (cd : Map CommunityDegree) : Key → CommunityDegree :=
  fun c => mgetD cd c CommunityDegree.zero

/-- The inductive invariant tying the statistics to the current
partition. -/
def InvC6 (verts : List Key) (adjOf : Key → List (Key × ℚ))
    (st : LMState) : Prop :=
  ∀ c, (CDfun st.community_degrees c).tot_degree -
      (CDfun st.community_degrees c).in_degree =
    outW verts adjOf (Pfun st.partition) c

/-- Well-formedness of a level's graph view: distinct swept vertices, a
closed and symmetric adjacency with no self-loops and nonnegative
weights. -/
def GoodGraph (verts : List Key) (adjOf : Key → List (Key × ℚ)) : Prop :=
  verts.Nodup ∧
  (∀ v ∈ verts, ∀ nw ∈ adjOf v, nw.1 ∈ verts) ∧
  (∀ u ∈ verts, ∀ x ∈ verts, wA adjOf u x = wA adjOf x u) ∧
  (∀ v ∈ verts, wA adjOf v v = 0) ∧
  (∀ v ∈ verts, ∀ nw ∈ adjOf v, 0 ≤ nw.2)

/-- The vertex-degree map agrees with the adjacency weights (true of both
drivers' level setups). -/
def DegreesMatch (verts : List Key) (adjOf : Key → List (Key × ℚ))
    (degrees : Map ℚ) : Prop :=
  ∀ v ∈ verts, mgetD degrees v 0 = degA adjOf v

/-! ### List-sum helpers -/

theorem sum_map_add {α : Type} (l : List α) (f g : α → ℚ) :
    (l.map (fun x => f x + g x)).sum = (l.map f).sum + (l.map g).sum := by
  induction l with
  | nil => simp
  | cons x rest ih => simp [ih]; ring

theorem sum_map_sub {α : Type} (l : List α) (f g : α → ℚ) :
    (l.map (fun x => f x - g x)).sum = (l.map f).sum - (l.map g).sum := by
  induction l with
  | nil => simp
  | cons x rest ih => simp [ih]; ring

theorem sum_map_mul_left {α : Type} (l : List α) (a : ℚ) (f : α → ℚ) :
    (l.map (fun x => a * f x)).sum = a * (l.map f).sum := by
  induction l with
  | nil => simp
  | cons x rest ih => simp [ih]; ring

theorem sum_map_congr {α : Type} (l : List α) (f g : α → ℚ)
    (h : ∀ x ∈ l, f x = g x) : (l.map f).sum = (l.map g).sum := by
  induction l with
  | nil => simp
  | cons x rest ih =>
      simp only [List.map_cons, List.sum_cons, h x (by simp)]
      rw [ih (fun x hx => h x (by simp [hx]))]

theorem sum_map_zero_of {α : Type} (l : List α) (f : α → ℚ)
    (h : ∀ x ∈ l, f x = 0) : (l.map f).sum = 0 := by
  rw [sum_map_congr l f (fun _ => 0) h]
  simp

theorem sum_single_hit (l : List Key) (k : Key) (a : ℚ)
    (hnd : l.Nodup) (hk : k ∈ l) :
    (l.map (fun x => if x = k then a else 0)).sum = a := by
  induction l with
  | nil => simp at hk
  | cons y rest ih =>
      simp only [List.nodup_cons] at hnd
      rcases List.mem_cons.mp hk with hy | hy
      · subst hy
        simp only [List.map_cons, List.sum_cons]
        rw [sum_map_zero_of rest _ (fun x hx => by
          rw [if_neg]; intro hxk; exact hnd.1 (hxk ▸ hx))]
        simp
      · have hyk : y ≠ k := fun h => hnd.1 (h ▸ hy)
        simp only [List.map_cons, List.sum_cons, if_neg hyk, ih hnd.2 hy,
          zero_add]

/-- Regrouping a weight sum over adjacency entries by target vertex: the
weight from `u` into community `c` is the sum, over the (distinct)
vertices `x` lying in `c`, of the edge weight from `u` to `x`. -/
theorem regroup_aux (verts : List Key) (P : Key → Key) (c : Key)
    (hnd : verts.Nodup) :
    ∀ (l : List (Key × ℚ)), (∀ nw ∈ l, nw.1 ∈ verts) →
      (l.map (fun nw => if P nw.1 = c then nw.2 else 0)).sum =
      (verts.map (fun x => if P x = c then
        ((l.map (fun nw => if nw.1 = x then nw.2 else 0)).sum) else 0)).sum := by
  intro l
  induction l with
  | nil =>
      intro _
      simp
  | cons nw rest ih =>
      intro hcl
      simp only [List.map_cons, List.sum_cons]
      rw [ih (fun x hx => hcl x (by simp [hx]))]
      rw [sum_map_congr verts
        (fun x => if P x = c then
          ((if nw.1 = x then nw.2 else 0) +
            (rest.map (fun e => if e.1 = x then e.2 else 0)).sum) else 0)
        (fun x => (if x = nw.1 then (if P nw.1 = c then nw.2 else 0) else 0) +
          (if P x = c then
            (rest.map (fun e => if e.1 = x then e.2 else 0)).sum else 0))
        (by
          intro x _
          by_cases hx : x = nw.1
          · subst hx
            by_cases hp : P nw.1 = c <;> simp [hp]
          · have hne : nw.1 ≠ x := fun h => hx h.symm
            by_cases hp : P x = c <;> simp [hp, hne, hx])]
      rw [sum_map_add]
      rw [sum_single_hit verts nw.1 _ hnd (hcl nw (by simp))]

theorem adjWf_update (adjOf : Key → List (Key × ℚ)) (P : Key → Key)
    (v b u c : Key) :
    adjWf adjOf (Function.update P v b) u c =
      adjWf adjOf P u c +
        ((if b = c then (1 : ℚ) else 0) - (if P v = c then 1 else 0)) *
          wA adjOf u v := by
  unfold adjWf wA
  rw [← sum_map_mul_left, ← sum_map_add]
  apply sum_map_congr
  intro nw _
  by_cases h : nw.1 = v
  · subst h
    rw [Function.update_same]
    by_cases hb : b = c <;> by_cases hp : P nw.1 = c <;>
      simp [hb, hp] <;> ring
  · rw [Function.update_noteq h]
    simp [h]

/-- The outgoing-boundary change caused by moving vertex `v` to
community `b`. -/
theorem outW_update (verts : List Key) (adjOf : Key → List (Key × ℚ))
    (P : Key → Key) (v b : Key)
    (hnd : verts.Nodup) (hv : v ∈ verts)
    (hcl : ∀ u ∈ verts, ∀ nw ∈ adjOf u, nw.1 ∈ verts)
    (hsym : ∀ u ∈ verts, ∀ x ∈ verts, wA adjOf u x = wA adjOf x u)
    (hself : wA adjOf v v = 0)
    (hb : b ≠ P v) (c : Key) :
    outW verts adjOf (Function.update P v b) c =
      outW verts adjOf P c +
        (if c = P v then 2 * adjWf adjOf P v c - degA adjOf v
         else if c = b then degA adjOf v - 2 * adjWf adjOf P v c
         else 0) := by
  have hEc : ∀ u ∈ verts,
      (if Function.update P v b u = c then
        degA adjOf u - adjWf adjOf (Function.update P v b) u c else 0) =
      (if P u = c then degA adjOf u - adjWf adjOf P u c else 0) +
        (if P u = c then
          ((if P v = c then (1 : ℚ) else 0) - (if b = c then 1 else 0)) *
            wA adjOf u v else 0) +
        (if u = v then
          ((if b = c then degA adjOf v - adjWf adjOf P v c else 0) -
            (if P v = c then degA adjOf v - adjWf adjOf P v c else 0))
          else 0) := by
    intro u hu
    by_cases huv : u = v
    · subst huv
      rw [Function.update_same]
      rw [adjWf_update adjOf P u b u c, hself]
      by_cases hbc : b = c <;> by_cases hpc : P u = c <;>
        simp [hbc, hpc] <;> ring
    · rw [Function.update_noteq huv]
      rw [adjWf_update adjOf P v b u c]
      by_cases hpc : P u = c <;> simp [hpc, huv] <;> ring
  unfold outW
  rw [sum_map_congr verts _ _ hEc, sum_map_add, sum_map_add]
  rw [sum_single_hit verts v _ hnd hv]
  have h1 : (verts.map (fun u => if P u = c then
      ((if P v = c then (1 : ℚ) else 0) - (if b = c then 1 else 0)) *
        wA adjOf u v else 0)).sum =
      ((if P v = c then (1 : ℚ) else 0) - (if b = c then 1 else 0)) *
        adjWf adjOf P v c := by
    rw [sum_map_congr verts _
      (fun u => ((if P v = c then (1 : ℚ) else 0) -
        (if b = c then 1 else 0)) * (if P u = c then wA adjOf v u else 0))
      (by
        intro u hu
        by_cases hpc : P u = c
        · simp only [hpc, if_true]
          rw [hsym u hu v hv]
        · simp [hpc])]
    rw [sum_map_mul_left]
    congr 1
    rw [adjWf, regroup_aux verts P c hnd (adjOf v) (hcl v hv)]
    apply sum_map_congr
    intro x _
    rfl
  rw [h1]
  by_cases hc1 : c = P v
  · subst hc1
    simp only [if_pos rfl, hb, if_false, if_true]
    ring
  · by_cases hc2 : c = b
    · subst hc2
      have hpb : ¬ P v = c := fun h => hc1 h.symm
      simp only [if_pos rfl, hpb, hc1, if_false, if_true]
      ring
    · have h3 : ¬ P v = c := fun h => hc1 h.symm
      have h4 : ¬ b = c := fun h => hc2 h.symm
      simp only [hc1, hc2, if_false, h3, h4]
      ring

/-! ### Characterizing the engine's intermediate data -/

theorem Pfun_mgetI_snd (p : Map Key) (k : Key) (x : Key) :
    Pfun (mgetI p k 0).2 x = Pfun p x :=
  mgetD_mgetI_snd p k x 0

theorem CDfun_mgetI_snd (cd : Map CommunityDegree) (k : Key) (x : Key) :
    CDfun (mgetI cd k CommunityDegree.zero).2 x = CDfun cd x :=
  mgetD_mgetI_snd cd k x CommunityDegree.zero

/-- The tally fold leaves the partition `mgetD`-unchanged. -/
theorem tally_fold_Pfun :
    ∀ (adj : List (Key × ℚ)) (dic : Map ℚ) (part : Map Key) (x : Key),
      Pfun ((adj.foldl (fun acc nw =>
        (maddD acc.1 (mgetI acc.2 nw.1 0).1 nw.2, (mgetI acc.2 nw.1 0).2))
        (dic, part)).2) x = Pfun part x := by
  intro adj
  induction adj with
  | nil => intro dic part x; rfl
  | cons nw rest ih =>
      intro dic part x
      simp only [List.foldl_cons]
      rw [ih]
      exact Pfun_mgetI_snd part nw.1 x

theorem tallyNeighbors_snd_Pfun (adj : List (Key × ℚ)) (part : Map Key)
    (x : Key) : Pfun (tallyNeighbors adj part).2 x = Pfun part x :=
  tally_fold_Pfun adj [] part x

/-- The tally fold computes, for each community `c`, the summed weight of
the adjacency entries whose endpoint lies in `c`. -/
theorem tally_fold_fst :
    ∀ (adj : List (Key × ℚ)) (dic : Map ℚ) (part : Map Key) (c : Key),
      mgetD ((adj.foldl (fun acc nw =>
        (maddD acc.1 (mgetI acc.2 nw.1 0).1 nw.2, (mgetI acc.2 nw.1 0).2))
        (dic, part)).1) c 0 =
      mgetD dic c 0 +
        (adj.map (fun nw => if Pfun part nw.1 = c then nw.2 else 0)).sum := by
  intro adj
  induction adj with
  | nil => intro dic part c; simp
  | cons nw rest ih =>
      intro dic part c
      simp only [List.foldl_cons, List.map_cons, List.sum_cons]
      rw [ih]
      rw [sum_map_congr rest
        (fun e => if Pfun (mgetI part nw.1 0).2 e.1 = c then e.2 else 0)
        (fun e => if Pfun part e.1 = c then e.2 else 0)
        (fun e _ => by simp only [Pfun_mgetI_snd])]
      rw [mgetD_maddD, mgetI_fst]
      by_cases hc : Pfun part nw.1 = c
      · simp only [Pfun] at hc
        rw [if_pos hc.symm, hc, if_pos (by simpa [Pfun] using hc)]
        ring
      · simp only [Pfun] at hc
        rw [if_neg (fun h => hc h.symm), if_neg (by simpa [Pfun] using hc)]
        ring

theorem tallyNeighbors_fst (adj : List (Key × ℚ)) (part : Map Key) (c : Key) :
    mgetD (tallyNeighbors adj part).1 c 0 =
      (adj.map (fun nw => if Pfun part nw.1 = c then nw.2 else 0)).sum := by
  have := tally_fold_fst adj [] part c
  simpa [mgetD, mfind?] using this

/-- The candidate scan leaves both threaded maps `mgetD`-unchanged
(its only writes are `operator[]` default-inserts). -/
theorem scan_fold_funs (E : ℕ) (vcom : Key) (vdeg vctot dInOwn : ℚ)
    (dic : Map ℚ) :
    ∀ (adj : List (Key × ℚ)) (acc : ℚ × Key × Map Key × Map CommunityDegree),
      (∀ x, Pfun (adj.foldl (fun acc nw =>
        let bestMod := acc.1
        let bestCom := acc.2.1
        let part := acc.2.2.1
        let cd := acc.2.2.2
        let ncom := (mgetI part nw.1 0).1
        let part' := (mgetI part nw.1 0).2
        if vcom = ncom then (bestMod, bestCom, part', cd)
        else
          let ncd := (mgetI cd ncom CommunityDegree.zero).1
          let cd' := (mgetI cd ncom CommunityDegree.zero).2
          let d := delta E vdeg (mgetD dic ncom 0) dInOwn ncd.tot_degree vctot
          if d > bestMod then (d, ncom, part', cd')
          else (bestMod, bestCom, part', cd')) acc).2.2.1 x =
        Pfun acc.2.2.1 x) ∧
      (∀ x, CDfun (adj.foldl (fun acc nw =>
        let bestMod := acc.1
        let bestCom := acc.2.1
        let part := acc.2.2.1
        let cd := acc.2.2.2
        let ncom := (mgetI part nw.1 0).1
        let part' := (mgetI part nw.1 0).2
        if vcom = ncom then (bestMod, bestCom, part', cd)
        else
          let ncd := (mgetI cd ncom CommunityDegree.zero).1
          let cd' := (mgetI cd ncom CommunityDegree.zero).2
          let d := delta E vdeg (mgetD dic ncom 0) dInOwn ncd.tot_degree vctot
          if d > bestMod then (d, ncom, part', cd')
          else (bestMod, bestCom, part', cd')) acc).2.2.2 x =
        CDfun acc.2.2.2 x) := by
  intro adj
  induction adj with
  | nil => intro acc; exact ⟨fun _ => rfl, fun _ => rfl⟩
  | cons nw rest ih =>
      intro acc
      simp only [List.foldl_cons]
      constructor
      · intro x
        rw [(ih _).1 x]
        split
        · exact Pfun_mgetI_snd acc.2.2.1 nw.1 x
        · split
          · exact Pfun_mgetI_snd acc.2.2.1 nw.1 x
          · exact Pfun_mgetI_snd acc.2.2.1 nw.1 x
      · intro x
        rw [(ih _).2 x]
        split
        · rfl
        · split
          · exact CDfun_mgetI_snd acc.2.2.2 _ x
          · exact CDfun_mgetI_snd acc.2.2.2 _ x

theorem scanCandidates_snd_Pfun (E : ℕ) (adj : List (Key × ℚ)) (vcom : Key)
    (vdeg vctot dInOwn : ℚ) (dic : Map ℚ) (part : Map Key)
    (cd : Map CommunityDegree) (x : Key) :
    Pfun (scanCandidates E adj vcom vdeg vctot dInOwn dic part cd).2.2.1 x =
      Pfun part x :=
  (scan_fold_funs E vcom vdeg vctot dInOwn dic adj (0, vcom, part, cd)).1 x

theorem scanCandidates_snd_CDfun (E : ℕ) (adj : List (Key × ℚ)) (vcom : Key)
    (vdeg vctot dInOwn : ℚ) (dic : Map ℚ) (part : Map Key)
    (cd : Map CommunityDegree) (x : Key) :
    CDfun (scanCandidates E adj vcom vdeg vctot dInOwn dic part cd).2.2.2 x =
      CDfun cd x :=
  (scan_fold_funs E vcom vdeg vctot dInOwn dic adj (0, vcom, part, cd)).2 x

/-- Pointwise effect of the accepted-move update block. -/
theorem CDfun_applyMove (cd : Map CommunityDegree) (vcom bestCom : Key)
    (vdeg dInOwn dInBest : ℚ) (hne : vcom ≠ bestCom) (c : Key) :
    CDfun (applyMove cd vcom bestCom vdeg dInOwn dInBest) c =
      if c = vcom then
        ⟨(CDfun cd vcom).in_degree - dInOwn,
          (CDfun cd vcom).tot_degree - (vdeg - dInOwn)⟩
      else if c = bestCom then
        ⟨(CDfun cd bestCom).in_degree + dInBest,
          (CDfun cd bestCom).tot_degree + (vdeg - dInBest)⟩
      else CDfun cd c := by
  unfold applyMove CDfun
  simp only [mgetD_mmodI]
  by_cases h1 : c = vcom
  · subst h1
    simp [Ne.symm hne, fun h : c = bestCom => hne h]
  · by_cases h2 : c = bestCom
    · subst h2
      simp [h1, fun h : vcom = c => hne h]
    · simp [h1, h2]

theorem Pfun_mset (p : Map Key) (k w x : Key) :
    Pfun (mset p k w) x = Function.update (Pfun p) k w x := by
  unfold Pfun
  rw [mgetD_mset, Function.update_apply]

theorem adjWf_congr (adjOf : Key → List (Key × ℚ)) (P P' : Key → Key)
    (h : ∀ x, P x = P' x) (v c : Key) :
    adjWf adjOf P v c = adjWf adjOf P' v c := by
  unfold adjWf
  exact sum_map_congr _ _ _ (fun nw _ => by rw [h])

theorem outW_congr (verts : List Key) (adjOf : Key → List (Key × ℚ))
    (P P' : Key → Key) (h : ∀ x, P x = P' x) (c : Key) :
    outW verts adjOf P c = outW verts adjOf P' c := by
  unfold outW
  apply sum_map_congr
  intro v _
  rw [h v, adjWf_congr adjOf P P' h]

/-! ### Named handles for `processVertex`'s intermediate values -/

/-- Value `vertex_degree` (line 50). -/
def pvVdeg (st : LMState) (v : Key) : ℚ := (mgetI st.degrees v 0).1

/-- The degree map after the `degrees[vertex]` read. -/
def pvDegrees (st : LMState) (v : Key) : Map ℚ := (mgetI st.degrees v 0).2

/-- Value `vertex_community` (line 51). -/
def pvVcom (st : LMState) (v : Key) : Key := (mgetI st.partition v 0).1

/-- The partition after the `partition[vertex]` read. -/
def pvPart1 (st : LMState) (v : Key) : Map Key := (mgetI st.partition v 0).2

/-- Value `vertex_com_tot_degree` (line 54). -/
def pvVctot (st : LMState) (v : Key) : ℚ :=
  (mgetI st.community_degrees (pvVcom st v) CommunityDegree.zero).1.tot_degree

/-- The statistics after the `community_degrees[vertex_community]` read. -/
def pvCd1 (st : LMState) (v : Key) : Map CommunityDegree :=
  (mgetI st.community_degrees (pvVcom st v) CommunityDegree.zero).2

/-- Map `degree_in_coms` (lines 56-59). -/
def pvDic (adjOf : Key → List (Key × ℚ)) (st : LMState) (v : Key) : Map ℚ :=
  (tallyNeighbors (adjOf v) (pvPart1 st v)).1

/-- The partition after the tally's `partition[neighbor]` reads. -/
def pvPart2 (adjOf : Key → List (Key × ℚ)) (st : LMState) (v : Key) :
    Map Key :=
  (tallyNeighbors (adjOf v) (pvPart1 st v)).2

/-- Value `vertex_in_vertex_com_degree` (line 60). -/
def pvDInOwn (adjOf : Key → List (Key × ℚ)) (st : LMState) (v : Key) : ℚ :=
  mgetD (pvDic adjOf st v) (pvVcom st v) 0

/-- The candidate scan (lines 62-77). -/
def pvScan (E : ℕ) (adjOf : Key → List (Key × ℚ)) (st : LMState) (v : Key) :
    ℚ × Key × Map Key × Map CommunityDegree :=
  scanCandidates E (adjOf v) (pvVcom st v) (pvVdeg st v) (pvVctot st v)
    (pvDInOwn adjOf st v) (pvDic adjOf st v) (pvPart2 adjOf st v) (pvCd1 st v)

/-- Value `best_com` after the scan. -/
def pvBest (E : ℕ) (adjOf : Key → List (Key × ℚ)) (st : LMState) (v : Key) :
    Key :=
  (pvScan E adjOf st v).2.1

/-- The partition after the scan's reads. -/
def pvPart3 (E : ℕ) (adjOf : Key → List (Key × ℚ)) (st : LMState) (v : Key) :
    Map Key :=
  (pvScan E adjOf st v).2.2.1

/-- The statistics after the scan's reads. -/
def pvCd2 (E : ℕ) (adjOf : Key → List (Key × ℚ)) (st : LMState) (v : Key) :
    Map CommunityDegree :=
  (pvScan E adjOf st v).2.2.2

/-- Unfolding `processVertex` in terms of the named intermediate values. -/
theorem processVertex_eq (E : ℕ) (adjOf : Key → List (Key × ℚ))
    (st : LMState) (v : Key) :
    processVertex E adjOf st v =
      if pvBest E adjOf st v ≠ pvVcom st v then
        (⟨mset (pvPart3 E adjOf st v) v (pvBest E adjOf st v),
          pvDegrees st v,
          applyMove (pvCd2 E adjOf st v) (pvVcom st v) (pvBest E adjOf st v)
            (pvVdeg st v) (pvDInOwn adjOf st v)
            (mgetD (pvDic adjOf st v) (pvBest E adjOf st v) 0)⟩, true)
      else (⟨pvPart3 E adjOf st v, pvDegrees st v, pvCd2 E adjOf st v⟩,
        false) := rfl

theorem pvVcom_eq (st : LMState) (v : Key) :
    pvVcom st v = Pfun st.partition v :=
  mgetI_fst st.partition v 0

theorem Pfun_pvPart3 (E : ℕ) (adjOf : Key → List (Key × ℚ)) (st : LMState)
    (v x : Key) :
    Pfun (pvPart3 E adjOf st v) x = Pfun st.partition x := by
  unfold pvPart3 pvScan
  rw [scanCandidates_snd_Pfun]
  unfold pvPart2
  rw [tallyNeighbors_snd_Pfun]
  exact Pfun_mgetI_snd st.partition v x

theorem CDfun_pvCd2 (E : ℕ) (adjOf : Key → List (Key × ℚ)) (st : LMState)
    (v : Key) (x : Key) :
    CDfun (pvCd2 E adjOf st v) x = CDfun st.community_degrees x := by
  unfold pvCd2 pvScan
  rw [scanCandidates_snd_CDfun]
  exact CDfun_mgetI_snd st.community_degrees (pvVcom st v) x

theorem mgetD_pvDegrees (st : LMState) (v x : Key) :
    mgetD (pvDegrees st v) x 0 = mgetD st.degrees x 0 :=
  mgetD_mgetI_snd st.degrees v x 0

theorem pvDic_eq (adjOf : Key → List (Key × ℚ)) (st : LMState) (v c : Key) :
    mgetD (pvDic adjOf st v) c 0 =
      adjWf adjOf (Pfun st.partition) v c := by
  unfold pvDic pvPart1
  rw [tallyNeighbors_fst]
  unfold adjWf
  exact sum_map_congr _ _ _ (fun nw _ => by
    simp only [Pfun_mgetI_snd])

/-- The accepted-move (and no-move) steps preserve the invariant and the
degree map. -/
theorem processVertex_inv (verts : List Key)
    (adjOf : Key → List (Key × ℚ)) (E : ℕ) (st : LMState) (v : Key)
    (hgood : GoodGraph verts adjOf)
    (hdm : DegreesMatch verts adjOf st.degrees)
    (hv : v ∈ verts)
    (hinv : InvC6 verts adjOf st) :
    InvC6 verts adjOf (processVertex E adjOf st v).1 ∧
    (∀ x, mgetD (processVertex E adjOf st v).1.degrees x 0 =
      mgetD st.degrees x 0) := by
  obtain ⟨hnd, hcl, hsym, hself, hnn⟩ := hgood
  rw [processVertex_eq]
  by_cases hmove : pvBest E adjOf st v ≠ pvVcom st v
  · rw [if_pos hmove]
    refine ⟨?_, fun x => mgetD_pvDegrees st v x⟩
    intro c
    show (CDfun (applyMove (pvCd2 E adjOf st v) (pvVcom st v)
        (pvBest E adjOf st v) (pvVdeg st v) (pvDInOwn adjOf st v)
        (mgetD (pvDic adjOf st v) (pvBest E adjOf st v) 0)) c).tot_degree -
      (CDfun (applyMove (pvCd2 E adjOf st v) (pvVcom st v)
        (pvBest E adjOf st v) (pvVdeg st v) (pvDInOwn adjOf st v)
        (mgetD (pvDic adjOf st v) (pvBest E adjOf st v) 0)) c).in_degree =
      outW verts adjOf
        (Pfun (mset (pvPart3 E adjOf st v) v (pvBest E adjOf st v))) c
    have hPnew : ∀ x, Pfun (mset (pvPart3 E adjOf st v) v
        (pvBest E adjOf st v)) x =
        Function.update (Pfun st.partition) v (pvBest E adjOf st v) x := by
      intro x
      rw [Pfun_mset, Function.update_apply, Function.update_apply]
      by_cases hx : x = v
      · simp [hx]
      · simp [hx, Pfun_pvPart3]
    rw [outW_congr verts adjOf _ _ hPnew c]
    have hb : pvBest E adjOf st v ≠ Pfun st.partition v := by
      rw [← pvVcom_eq]; exact hmove
    rw [outW_update verts adjOf (Pfun st.partition) v
      (pvBest E adjOf st v) hnd hv hcl hsym (hself v hv) hb c]
    rw [CDfun_applyMove _ _ _ _ _ _ (fun h => hmove h.symm) c]
    have hvd : pvVdeg st v = degA adjOf v := by
      unfold pvVdeg
      rw [mgetI_fst]
      exact hdm v hv
    have hdin : pvDInOwn adjOf st v =
        adjWf adjOf (Pfun st.partition) v (pvVcom st v) := by
      unfold pvDInOwn
      rw [pvDic_eq]
    have hdib : mgetD (pvDic adjOf st v) (pvBest E adjOf st v) 0 =
        adjWf adjOf (Pfun st.partition) v (pvBest E adjOf st v) :=
      pvDic_eq adjOf st v (pvBest E adjOf st v)
    by_cases hc1 : c = pvVcom st v
    · have hcPv : c = Pfun st.partition v := hc1.trans (pvVcom_eq st v)
      rw [if_pos hc1, if_pos hcPv]
      simp only [CDfun_pvCd2, hdin, hvd, ← hc1]
      rw [← hinv c]
      ring
    · have hcPv : ¬ c = Pfun st.partition v := by
        rw [← pvVcom_eq]; exact hc1
      rw [if_neg hc1, if_neg hcPv]
      by_cases hc2 : c = pvBest E adjOf st v
      · rw [if_pos hc2, if_pos hc2]
        simp only [CDfun_pvCd2, hvd, ← hc2]
        rw [pvDic_eq, ← hinv c]
        ring
      · rw [if_neg hc2, if_neg hc2]
        simp only [CDfun_pvCd2]
        rw [← hinv c]
        ring
  · rw [if_neg hmove]
    refine ⟨?_, fun x => mgetD_pvDegrees st v x⟩
    intro c
    show (CDfun (pvCd2 E adjOf st v) c).tot_degree -
        (CDfun (pvCd2 E adjOf st v) c).in_degree =
      outW verts adjOf (Pfun (pvPart3 E adjOf st v)) c
    rw [outW_congr verts adjOf _ _ (Pfun_pvPart3 E adjOf st v) c]
    simp only [CDfun_pvCd2]
    exact hinv c

theorem sum_map_nonneg {α : Type} (l : List α) (f : α → ℚ)
    (h : ∀ x ∈ l, 0 ≤ f x) : 0 ≤ (l.map f).sum := by
  induction l with
  | nil => simp
  | cons x rest ih =>
      simp only [List.map_cons, List.sum_cons]
      have := h x (by simp)
      have := ih (fun y hy => h y (by simp [hy]))
      linarith

theorem sum_map_le {α : Type} (l : List α) (f g : α → ℚ)
    (h : ∀ x ∈ l, f x ≤ g x) : (l.map f).sum ≤ (l.map g).sum := by
  induction l with
  | nil => simp
  | cons x rest ih =>
      simp only [List.map_cons, List.sum_cons]
      have := h x (by simp)
      have := ih (fun y hy => h y (by simp [hy]))
      linarith

/-- Under the invariant, the boundary weight is nonnegative, hence
`internal_degree ≤ total_degree` for every community. -/
theorem invC6_le (verts : List Key) (adjOf : Key → List (Key × ℚ))
    (st : LMState) (hgood : GoodGraph verts adjOf)
    (hinv : InvC6 verts adjOf st) (c : Key) :
    (CDfun st.community_degrees c).in_degree ≤
      (CDfun st.community_degrees c).tot_degree := by
  obtain ⟨hnd, hcl, hsym, hself, hnn⟩ := hgood
  have h0 := hinv c
  have hout : 0 ≤ outW verts adjOf (Pfun st.partition) c := by
    apply sum_map_nonneg
    intro v hv
    by_cases hp : Pfun st.partition v = c
    · rw [if_pos hp]
      have hle : adjWf adjOf (Pfun st.partition) v c ≤ degA adjOf v := by
        unfold adjWf degA
        apply sum_map_le
        intro nw hnw
        by_cases hq : Pfun st.partition nw.1 = c
        · rw [if_pos hq]
        · rw [if_neg hq]; exact hnn v hv nw hnw
      linarith
    · rw [if_neg hp]
  linarith

/-- Initialization (lines 218-228) establishes the invariant: each
community is the singleton of its vertex, `internal_degree = 0` and
`total_degree =` its degree, which equals its boundary weight on a
self-loop-free graph. -/
theorem invC6_initState (store : StoreGraph)
    (hgood : GoodGraph store.vertices (storeAdj store))
    (hsd : ∀ v ∈ store.vertices, store.degree v = degA (storeAdj store) v) :
    InvC6 store.vertices (storeAdj store) (initState store) ∧
    DegreesMatch store.vertices (storeAdj store) (initState store).degrees := by
  obtain ⟨hnd, hcl, hsym, hself, hnn⟩ := hgood
  have hP : ∀ x, Pfun (initState store).partition x =
      if x ∈ store.vertices then x else 0 := by
    intro x
    unfold Pfun mgetD
    rw [initState_partition]
    by_cases hx : x ∈ store.vertices
    · rw [mfind?_foldl_mset_self (fun y => y) x store.vertices [] hx,
        if_pos hx]
      rfl
    · rw [mfind?_foldl_mset_not_mem (fun y => y) x store.vertices [] hx,
        if_neg hx]
      rfl
  have hCD : ∀ c, CDfun (initState store).community_degrees c =
      if c ∈ store.vertices then ⟨0, store.degree c⟩ else ⟨0, 0⟩ := by
    intro c
    unfold CDfun mgetD
    rw [initState_community_degrees]
    by_cases hc : c ∈ store.vertices
    · rw [mfind?_foldl_mset_self
        (fun y => (⟨0, store.degree y⟩ : CommunityDegree)) c store.vertices
        [] hc, if_pos hc]
      rfl
    · rw [mfind?_foldl_mset_not_mem
        (fun y => (⟨0, store.degree y⟩ : CommunityDegree)) c store.vertices
        [] hc, if_neg hc]
      rfl
  have hD : ∀ v ∈ store.vertices,
      mgetD (initState store).degrees v 0 = store.degree v := by
    intro v hv
    unfold mgetD
    rw [initState_degrees,
      mfind?_foldl_mset_self (fun y => store.degree y) v store.vertices [] hv]
    rfl
  constructor
  · intro c
    by_cases hc : c ∈ store.vertices
    · have hA : adjWf (storeAdj store) (Pfun (initState store).partition)
          c c = wA (storeAdj store) c c := by
        unfold adjWf wA
        apply sum_map_congr
        intro nw hnw
        rw [hP nw.1, if_pos (hcl c hc nw hnw)]
      have hout : outW store.vertices (storeAdj store)
          (Pfun (initState store).partition) c = degA (storeAdj store) c := by
        unfold outW
        rw [sum_map_congr store.vertices _
          (fun v => if v = c then
            degA (storeAdj store) c - adjWf (storeAdj store)
              (Pfun (initState store).partition) c c else 0)
          (by
            intro v hv
            simp only [hP v, if_pos hv]
            by_cases hvc : v = c
            · subst hvc; simp
            · simp [hvc])]
        rw [sum_single_hit store.vertices c _ hnd hc, hA, hself c hc]
        ring
      rw [hCD c, if_pos hc, hout]
      show store.degree c - 0 = degA (storeAdj store) c
      rw [hsd c hc]
      ring
    · have hout : outW store.vertices (storeAdj store)
          (Pfun (initState store).partition) c = 0 := by
        unfold outW
        apply sum_map_zero_of
        intro v hv
        rw [hP v, if_pos hv, if_neg (fun h : v = c => hc (h ▸ hv))]
      rw [hCD c, if_neg hc, hout]
      show (0 : ℚ) - 0 = 0
      ring
  · intro v hv
    rw [hD v hv]
    exact hsd v hv

/-- **C6** (confirmed).  `internal_degree(c) ≤ total_degree(c)` for every
community at every reachable state of a level: (1) any state satisfying
the boundary invariant `InvC6` has the property; (2) the invariant (and
the degree-map agreement) is preserved by the per-vertex step of both
engines — in particular by every accepted move — so it holds after any
sequence of accepted moves; (3) initialization establishes the invariant.
The graph view must be well-formed (`GoodGraph`: distinct vertices,
closed symmetric adjacency, no self-loops, nonnegative weights) with the
degree map matching the adjacency. -/
theorem claim6_internal_le_total :
    (∀ (verts : List Key) (adjOf : Key → List (Key × ℚ)) (st : LMState),
      GoodGraph verts adjOf → InvC6 verts adjOf st →
      ∀ c, (CDfun st.community_degrees c).in_degree ≤
        (CDfun st.community_degrees c).tot_degree) ∧
    (∀ (verts : List Key) (adjOf : Key → List (Key × ℚ)) (E : ℕ)
        (st : LMState) (v : Key),
      GoodGraph verts adjOf → DegreesMatch verts adjOf st.degrees →
      InvC6 verts adjOf st → v ∈ verts →
      InvC6 verts adjOf (processVertex E adjOf st v).1 ∧
      DegreesMatch verts adjOf (processVertex E adjOf st v).1.degrees) ∧
    (∀ store : StoreGraph,
      GoodGraph store.vertices (storeAdj store) →
      (∀ v ∈ store.vertices, store.degree v = degA (storeAdj store) v) →
      InvC6 store.vertices (storeAdj store) (initState store) ∧
      DegreesMatch store.vertices (storeAdj store)
        (initState store).degrees) := by
  refine ⟨?_, ?_, ?_⟩
  · intro verts adjOf st hgood hinv c
    exact invC6_le verts adjOf st hgood hinv c
  · intro verts adjOf E st v hgood hdm hinv hv
    obtain ⟨h1, h2⟩ := processVertex_inv verts adjOf E st v hgood hdm hv hinv
    refine ⟨h1, ?_⟩
    intro x hx
    rw [h2 x]
    exact hdm x hx
  · intro store hgood hsd
    exact invC6_initState store hgood hsd

/-- The 2-vertex path `1 — 2` as a store (unit edge between 1 and 2). -/
def pathStore : StoreGraph :=
  ⟨[1, 2], (fun v => if v = 1 then [2] else if v = 2 then [1] else []),
    (fun v => if v = 1 then 1 else if v = 2 then 1 else 0), 1⟩

/-- Witness for `claim6_internal_le_total` on the 2-vertex path: the
inequality holds at initialization, and still holds after the accepted
move that processing vertex 1 performs. -/
theorem claim6_witness :
    ((CDfun (initState pathStore).community_degrees 1).in_degree ≤
      (CDfun (initState pathStore).community_degrees 1).tot_degree) ∧
    ((CDfun (processVertex 1 (storeAdj pathStore) (initState pathStore)
        1).1.community_degrees 2).in_degree ≤
      (CDfun (processVertex 1 (storeAdj pathStore) (initState pathStore)
        1).1.community_degrees 2).tot_degree) := by
  have hgood : GoodGraph pathStore.vertices (storeAdj pathStore) := by
    refine ⟨by decide, ?_, ?_, ?_, ?_⟩
    · intro v hv nw hnw
      simp only [pathStore] at hv
      fin_cases hv <;> norm_num [storeAdj, pathStore] at hnw <;> simp [hnw, pathStore]
    · intro u hu x hx
      simp only [pathStore] at hu hx
      fin_cases hu <;> fin_cases hx <;> norm_num [wA, storeAdj, pathStore]
    · intro v hv
      simp only [pathStore] at hv
      fin_cases hv <;> norm_num [wA, storeAdj, pathStore]
    · intro v hv nw hnw
      simp only [pathStore] at hv
      fin_cases hv <;> norm_num [storeAdj, pathStore] at hnw <;>
        simp [hnw, pathStore]
  have hsd : ∀ v ∈ pathStore.vertices,
      pathStore.degree v = degA (storeAdj pathStore) v := by
    intro v hv
    simp only [pathStore] at hv
    fin_cases hv <;> norm_num [degA, storeAdj, pathStore]
  have hinit := claim6_internal_le_total.2.2 pathStore hgood hsd
  have hstep := claim6_internal_le_total.2.1 pathStore.vertices
    (storeAdj pathStore) 1 (initState pathStore) 1 hgood hinit.2 hinit.1
    (by simp [pathStore])
  exact ⟨claim6_internal_le_total.1 pathStore.vertices (storeAdj pathStore)
      (initState pathStore) hgood hinit.1 1,
    claim6_internal_le_total.1 pathStore.vertices (storeAdj pathStore)
      (processVertex 1 (storeAdj pathStore) (initState pathStore) 1).1
      hgood hstep.1 2⟩

/-! ## Claim C10: the driver rewrites values, never keys -/

/-- The candidate scan leaves the threaded partition **literally**
unchanged when every scanned neighbor key is present. -/
theorem scan_fold_part_of_present (E : ℕ) (vcom : Key)
    (vdeg vctot dInOwn : ℚ) (dic : Map ℚ) :
    ∀ (adj : List (Key × ℚ)) (acc : ℚ × Key × Map Key × Map CommunityDegree),
      (∀ nw ∈ adj, nw.1 ∈ mkeys acc.2.2.1) →
      (adj.foldl (fun acc nw =>
        let bestMod := acc.1
        let bestCom := acc.2.1
        let part := acc.2.2.1
        let cd := acc.2.2.2
        let ncom := (mgetI part nw.1 0).1
        let part' := (mgetI part nw.1 0).2
        if vcom = ncom then (bestMod, bestCom, part', cd)
        else
          let ncd := (mgetI cd ncom CommunityDegree.zero).1
          let cd' := (mgetI cd ncom CommunityDegree.zero).2
          let d := delta E vdeg (mgetD dic ncom 0) dInOwn ncd.tot_degree vctot
          if d > bestMod then (d, ncom, part', cd')
          else (bestMod, bestCom, part', cd')) acc).2.2.1 =
      acc.2.2.1 := by
  intro adj
  induction adj with
  | nil => intro acc _; rfl
  | cons nw rest ih =>
      intro acc h
      simp only [List.foldl_cons, mgetI_snd_of_mem acc.2.2.1 nw.1 0
        (h nw (by simp))]
      have hstep : ∀ (z : ℚ × Key × Map Key × Map CommunityDegree),
          z.2.2.1 = acc.2.2.1 →
          (rest.foldl (fun acc nw =>
            let bestMod := acc.1
            let bestCom := acc.2.1
            let part := acc.2.2.1
            let cd := acc.2.2.2
            let ncom := (mgetI part nw.1 0).1
            let part' := (mgetI part nw.1 0).2
            if vcom = ncom then (bestMod, bestCom, part', cd)
            else
              let ncd := (mgetI cd ncom CommunityDegree.zero).1
              let cd' := (mgetI cd ncom CommunityDegree.zero).2
              let d := delta E vdeg (mgetD dic ncom 0) dInOwn ncd.tot_degree
                vctot
              if d > bestMod then (d, ncom, part', cd')
              else (bestMod, bestCom, part', cd')) z).2.2.1 = acc.2.2.1 := by
        intro z hz
        rw [ih z (by rw [hz]; exact fun x hx => h x (by simp [hx])), hz]
      split
      · exact hstep _ (by
          simp only [mgetI_snd_of_mem acc.2.2.1 nw.1 0 (h nw (by simp))])
      · split
        · exact hstep _ (by
            simp only [mgetI_snd_of_mem acc.2.2.1 nw.1 0 (h nw (by simp))])
        · exact hstep _ (by
            simp only [mgetI_snd_of_mem acc.2.2.1 nw.1 0 (h nw (by simp))])

/-- Under presence of the vertex and its neighbors, the per-vertex step's
partition is either the old one (no move) or a value rewrite at the
existing key `v` — its key list never changes. -/
theorem processVertex_keys (E : ℕ) (adjOf : Key → List (Key × ℚ))
    (st : LMState) (v : Key)
    (hv : v ∈ mkeys st.partition)
    (hnb : ∀ nw ∈ adjOf v, nw.1 ∈ mkeys st.partition) :
    mkeys (processVertex E adjOf st v).1.partition = mkeys st.partition := by
  have hpart1 : pvPart1 st v = st.partition := mgetI_snd_of_mem _ _ _ hv
  have hpart2 : pvPart2 adjOf st v = st.partition := by
    unfold pvPart2
    rw [hpart1]
    exact tallyNeighbors_snd_of_present (adjOf v) st.partition hnb
  have hpart3 : pvPart3 E adjOf st v = st.partition := by
    unfold pvPart3 pvScan scanCandidates
    have hscan := scan_fold_part_of_present E (pvVcom st v) (pvVdeg st v)
      (pvVctot st v) (pvDInOwn adjOf st v) (pvDic adjOf st v) (adjOf v)
      (0, pvVcom st v, pvPart2 adjOf st v, pvCd1 st v)
      (by
        intro nw hnw
        show nw.1 ∈ mkeys (pvPart2 adjOf st v)
        rw [hpart2]
        exact hnb nw hnw)
    exact hscan.trans hpart2
  rw [processVertex_eq]
  by_cases hmove : pvBest E adjOf st v ≠ pvVcom st v
  · rw [if_pos hmove]
    show mkeys (mset (pvPart3 E adjOf st v) v (pvBest E adjOf st v)) =
      mkeys st.partition
    rw [hpart3]
    exact mkeys_mset_mem st.partition v (pvBest E adjOf st v) hv
  · rw [if_neg hmove]
    show mkeys (pvPart3 E adjOf st v) = mkeys st.partition
    rw [hpart3]

/-- A sweep never changes the partition's key list when the swept
vertices and all their neighbors are among its keys. -/
theorem sweep_keys (E : ℕ) (adjOf : Key → List (Key × ℚ)) :
    ∀ (verts : List Key) (st : LMState),
      (∀ v ∈ verts, v ∈ mkeys st.partition ∧
        ∀ nw ∈ adjOf v, nw.1 ∈ mkeys st.partition) →
      mkeys (sweep E verts adjOf st).1.partition = mkeys st.partition := by
  intro verts
  suffices H : ∀ (l : List Key) (st : LMState) (moved : Bool),
      (∀ v ∈ l, v ∈ mkeys st.partition ∧
        ∀ nw ∈ adjOf v, nw.1 ∈ mkeys st.partition) →
      mkeys (l.foldl (fun acc v =>
        ((processVertex E adjOf acc.1 v).1,
          acc.2 || (processVertex E adjOf acc.1 v).2)) (st, moved)).1.partition =
      mkeys st.partition by
    intro st h
    exact H verts st false h
  intro l
  induction l with
  | nil => intro st moved _; rfl
  | cons x rest ih =>
      intro st moved h
      simp only [List.foldl_cons]
      have hx := h x (by simp)
      have hkeys := processVertex_keys E adjOf st x hx.1 hx.2
      rw [ih _ _ (by
        intro v hv
        rw [hkeys]
        exact h v (by simp [hv]))]
      exact hkeys

/-- The sweep loop never changes the partition's key list. -/
theorem localMove_keys (E : ℕ) (verts : List Key)
    (adjOf : Key → List (Key × ℚ)) :
    ∀ (fuel : ℕ) (st : LMState) (improvement : Bool) (res : LMState)
      (imp : Bool),
      (∀ v ∈ verts, v ∈ mkeys st.partition ∧
        ∀ nw ∈ adjOf v, nw.1 ∈ mkeys st.partition) →
      localMove fuel E verts adjOf st improvement = some (res, imp) →
      mkeys res.partition = mkeys st.partition := by
  intro fuel
  induction fuel with
  | zero => intro st improvement res imp h hrun; simp [localMove] at hrun
  | succ fuel ih =>
      intro st improvement res imp h hrun
      unfold localMove at hrun
      have hkeys := sweep_keys E adjOf verts st h
      by_cases hmv : (sweep E verts adjOf st).2
      · rw [if_pos hmv] at hrun
        rw [ih _ _ _ _ (by
          intro v hv
          rw [hkeys]
          exact h v hv) hrun]
        exact hkeys
      · rw [if_neg hmv] at hrun
        injection hrun with hrun1
        injection hrun1 with ha hb
        rw [← ha]
        exact hkeys

theorem mkeys_foldl_mset {α : Type} (f : Key → α) :
    ∀ (l : List Key) (m : Map α),
      (∀ x ∈ l, x ∉ mkeys m) → l.Nodup →
      mkeys (l.foldl (fun m x => mset m x (f x)) m) = mkeys m ++ l := by
  intro l
  induction l with
  | nil => intro m _ _; simp
  | cons x rest ih =>
      intro m hfresh hnd
      simp only [List.nodup_cons] at hnd
      simp only [List.foldl_cons]
      rw [ih (mset m x (f x))
        (by
          intro y hy
          rw [mkeys_mset_not_mem m x (f x) (hfresh x (by simp))]
          simp only [List.mem_append, List.mem_singleton]
          push_neg
          exact ⟨hfresh y (by simp [hy]), fun h => hnd.1 (h ▸ hy)⟩)
        hnd.2]
      rw [mkeys_mset_not_mem m x (f x) (hfresh x (by simp))]
      simp

theorem initState_partition_keys (store : StoreGraph)
    (hnd : store.vertices.Nodup) :
    mkeys (initState store).partition = store.vertices := by
  rw [initState_partition]
  have := mkeys_foldl_mset (fun x => x) store.vertices []
    (by intro x _; simp [mkeys]) hnd
  simpa using this

/-- The driver loop only prepends to the partition stack. -/
theorem driverLoop_suffix :
    ∀ (fuel pf : ℕ) (g : Graph) (parts : List (Map Key)) (mod : ℚ)
      (improvement : Bool) (min_growth : ℚ) (dz : Bool)
      (res : List (Map Key)) (dz' : Bool),
      driverLoop fuel pf g parts mod improvement min_growth dz =
        some (res, dz') →
      ∃ pre, res = pre ++ parts := by
  intro fuel
  induction fuel with
  | zero =>
      intro pf g parts mod improvement min_growth dz res dz' h
      simp [driverLoop] at h
  | succ fuel ih =>
      intro pf g parts mod improvement min_growth dz res dz' h
      unfold driverLoop at h
      by_cases himp : improvement
      · rw [if_pos himp] at h
        simp only [Option.bind_eq_bind] at h
        rcases hsp : second_phase pf g (levelInit g).1 ((levelInit g).2.2 / 2)
          with _ | ⟨st', imp'⟩
        · rw [hsp] at h
          simp at h
        · rw [hsp] at h
          simp only [Option.bind_eq_bind, Option.some_bind] at h
          rcases hm : modularity st'.partition st'.community_degrees
            ((intDivTrunc (levelInit g).2.1 2 : ℤ) : ℚ) with _ | q
          · rw [hm] at h
            simp at h
          · rw [hm] at h
            simp only [Option.some_bind] at h
            by_cases hle : q - mod ≤ min_growth
            · rw [if_pos hle] at h
              simp only [Option.pure_def, Option.some.injEq,
                Prod.mk.injEq] at h
              exact ⟨[], h.1.symm⟩
            · rw [if_neg hle] at h
              rcases hg : induce_community_graph_mem g st'.partition
                with _ | g'
              · rw [hg] at h
                simp at h
              · rw [hg] at h
                simp only [Option.some_bind] at h
                obtain ⟨pre', hpre⟩ := ih _ _ _ _ _ _ _ _ _ h
                exact ⟨pre' ++ [st'.partition], by
                  rw [hpre, List.append_assoc]
                  rfl⟩
      · rw [if_neg himp] at h
        simp only [Option.pure_def, Option.some.injEq, Prod.mk.injEq] at h
        exact ⟨[], h.1.symm⟩

/-- One flattening step rewrites only values: the key list is that of the
finer partition. -/
theorem flattenStep_keys (part pi : Map Key) :
    mkeys (flattenStep part pi).1 = mkeys pi := by
  unfold flattenStep
  suffices H : ∀ (l : List (Key × Key)) (acc part : Map Key),
      (∀ e ∈ l, e.1 ∈ mkeys acc) →
      mkeys (l.foldl (fun acc vc =>
        (mset acc.1 vc.1 (mgetI acc.2 vc.2 0).1, (mgetI acc.2 vc.2 0).2))
        (acc, part)).1 = mkeys acc by
    exact H pi pi part (fun e he => List.mem_map.mpr ⟨e, he, rfl⟩)
  intro l
  induction l with
  | nil => intro acc part _; rfl
  | cons e rest ih =>
      intro acc part h
      simp only [List.foldl_cons]
      have hk := mkeys_mset_mem acc e.1 (mgetI part e.2 0).1 (h e (by simp))
      rw [ih _ _ (by
        intro x hx
        rw [hk]
        exact h x (by simp [hx]))]
      exact hk

theorem flattenGo_keys_last :
    ∀ (l : List (Map Key)) (p0 p1 : Map Key),
      mkeys (flattenGo p0 (l ++ [p1])) = mkeys p1 := by
  intro l
  induction l with
  | nil =>
      intro p0 p1
      show mkeys (flattenGo (flattenStep p0 p1).1 []) = mkeys p1
      show mkeys (flattenStep p0 p1).1 = mkeys p1
      exact flattenStep_keys p0 p1
  | cons q rest ih =>
      intro p0 p1
      show mkeys (flattenGo (flattenStep p0 q).1 (rest ++ [p1])) = mkeys p1
      exact ih (flattenStep p0 q).1 p1

/-- **C10** (confirmed).  On a store with distinct streamed vertices whose
neighbor lists stay inside the streamed set, every successful
`best_partition` run returns a mapping whose key list is exactly the
streamed vertex list: initialization creates those keys, local moves and
flattening rewrite only values. -/
theorem claim10_keys (store : StoreGraph) (min_growth : ℚ) (pf lf : ℕ)
    (hnd : store.vertices.Nodup)
    (hcl : ∀ v ∈ store.vertices, ∀ n ∈ store.neighbors v,
      n ∈ store.vertices)
    (result : Map Key) (dz : Bool)
    (hrun : best_partition store min_growth pf lf = some (result, dz)) :
    mkeys result = store.vertices := by
  unfold best_partition at hrun
  simp only [Option.bind_eq_bind] at hrun
  rcases hfp : first_phase pf store (initState store) store.count_edges
    with _ | ⟨st1, improvement⟩
  · rw [hfp] at hrun; simp at hrun
  rw [hfp] at hrun
  simp only [Option.some_bind] at hrun
  have hkeys0 := initState_partition_keys store hnd
  have hkeys1 : mkeys st1.partition = store.vertices := by
    have := localMove_keys store.count_edges store.vertices
      (fun v => (store.neighbors v).map (fun n => (n, (1 : ℚ))))
      pf (initState store) false st1 improvement
      (by
        intro v hv
        rw [hkeys0]
        refine ⟨hv, ?_⟩
        intro nw hnw
        obtain ⟨n, hn, rfl⟩ := List.mem_map.mp hnw
        exact hcl v hv n hn)
      hfp
    rw [this, hkeys0]
  rcases hm : modularity st1.partition st1.community_degrees
    ((store.count_edges : ℕ) : ℚ) with _ | q
  · rw [hm] at hrun; simp at hrun
  rw [hm] at hrun
  simp only [Option.some_bind] at hrun
  rcases hg : induce_community_graph_store store st1.partition with _ | g
  · rw [hg] at hrun; simp at hrun
  rw [hg] at hrun
  simp only [Option.some_bind] at hrun
  rcases hdl : driverLoop lf pf g [st1.partition] q improvement min_growth
    (modularity_div_zero ((store.count_edges : ℕ) : ℚ)) with _ | ⟨parts, dzf⟩
  · rw [hdl] at hrun; simp at hrun
  rw [hdl] at hrun
  simp only [Option.some_bind, Option.pure_def, Option.some.injEq,
    Prod.mk.injEq] at hrun
  obtain ⟨pre, hpre⟩ := driverLoop_suffix lf pf g [st1.partition] q
    improvement min_growth _ parts dzf hdl
  rw [← hrun.1, hpre]
  cases pre with
  | nil =>
      show mkeys (flatten [st1.partition]) = store.vertices
      show mkeys st1.partition = store.vertices
      exact hkeys1
  | cons q0 pre' =>
      show mkeys (flatten ((q0 :: pre') ++ [st1.partition])) = store.vertices
      show mkeys (flattenGo q0 (pre' ++ [st1.partition])) = store.vertices
      rw [flattenGo_keys_last pre' q0 st1.partition]
      exact hkeys1

/-! ### Concrete evaluation of the full driver on the 2-vertex path -/

theorem pathStore_init : initState pathStore =
    ⟨[(1, 1), (2, 2)], [(1, 1), (2, 1)], [(1, ⟨0, 1⟩), (2, ⟨0, 1⟩)]⟩ := by
  norm_num [initState, pathStore, mset]

theorem pathStore_phase1 :
    first_phase 3 pathStore
      ⟨[(1, 1), (2, 2)], [(1, 1), (2, 1)], [(1, ⟨0, 1⟩), (2, ⟨0, 1⟩)]⟩ 1 =
      some (⟨[(1, 2), (2, 2)], [(1, 1), (2, 1)],
        [(1, ⟨0, 0⟩), (2, ⟨1, 1⟩)]⟩, true) := by
  have hs1 : sweep 1 [1, 2]
      (fun v => ((pathStore.neighbors v).map (fun n => (n, (1 : ℚ)))))
      ⟨[(1, 1), (2, 2)], [(1, 1), (2, 1)], [(1, ⟨0, 1⟩), (2, ⟨0, 1⟩)]⟩ =
      (⟨[(1, 2), (2, 2)], [(1, 1), (2, 1)],
        [(1, ⟨0, 0⟩), (2, ⟨1, 1⟩)]⟩, true) := by
    norm_num [sweep, processVertex, tallyNeighbors, scanCandidates,
      applyMove, delta, mgetI, mgetD, mset, mfind?, maddD, mmodI,
      CommunityDegree.zero, pathStore]
  have hs2 : sweep 1 [1, 2]
      (fun v => ((pathStore.neighbors v).map (fun n => (n, (1 : ℚ)))))
      ⟨[(1, 2), (2, 2)], [(1, 1), (2, 1)], [(1, ⟨0, 0⟩), (2, ⟨1, 1⟩)]⟩ =
      (⟨[(1, 2), (2, 2)], [(1, 1), (2, 1)],
        [(1, ⟨0, 0⟩), (2, ⟨1, 1⟩)]⟩, false) := by
    norm_num [sweep, processVertex, tallyNeighbors, scanCandidates,
      applyMove, delta, mgetI, mgetD, mset, mfind?, maddD, mmodI,
      CommunityDegree.zero, pathStore]
  show localMove 3 1 [1, 2] _ _ false = _
  rw [show (3 : ℕ) = 2 + 1 from rfl]
  unfold localMove
  rw [hs1]
  simp only [if_true]
  rw [show (2 : ℕ) = 1 + 1 from rfl]
  unfold localMove
  rw [hs2]
  simp only [Bool.false_eq_true, if_false]

theorem pathStore_mod1 :
    modularity [(1, 2), (2, 2)] [(1, ⟨0, 0⟩), (2, ⟨1, 1⟩)] ((1 : ℕ) : ℚ) =
      some (-8) := by
  norm_num [modularity, mfind?]

theorem pathStore_induce :
    induce_community_graph_store pathStore [(1, 2), (2, 2)] = some [] := by
  norm_num [induce_community_graph_store, mfind?, pathStore]

theorem pathStore_loop :
    driverLoop 2 3 [] [[(1, 2), (2, 2)]] (-8) true
      min_modularity_growth_default false =
      some ([[], [(1, 2), (2, 2)]], true) := by
  have h1 : second_phase 3 ([] : Graph) ⟨[], [], []⟩ 0 =
      some (⟨[], [], []⟩, false) := by
    norm_num [second_phase, localMove, sweep, mkeys]
  rw [show (2 : ℕ) = 1 + 1 from rfl]
  unfold driverLoop
  rw [if_pos rfl]
  simp only [Option.bind_eq_bind]
  rw [show levelInit ([] : Graph) = (⟨[], [], []⟩, 0, 0) from rfl]
  simp only
  rw [h1]
  simp only [Option.some_bind]
  rw [show modularity (⟨[], [], []⟩ : LMState).partition
    (⟨[], [], []⟩ : LMState).community_degrees
    ((intDivTrunc 0 2 : ℤ) : ℚ) = some 0 from rfl]
  simp only [Option.some_bind]
  rw [if_neg (by norm_num [min_modularity_growth_default])]
  rw [show induce_community_graph_mem ([] : Graph)
    (⟨[], [], []⟩ : LMState).partition = some [] from rfl]
  simp only [Option.some_bind]
  unfold driverLoop
  rw [if_neg (by simp)]
  have hdz : (false || modularity_div_zero ((intDivTrunc 0 2 : ℤ) : ℚ)) =
      true := by
    norm_num [modularity_div_zero, intDivTrunc, truncQ]
  rw [hdz]
  rfl

theorem pathStore_run :
    best_partition pathStore min_modularity_growth_default 3 2 =
      some ([(1, 0), (2, 0)], true) := by
  unfold best_partition
  simp only [Option.bind_eq_bind]
  rw [show pathStore.count_edges = 1 from rfl, pathStore_init,
    pathStore_phase1]
  simp only [Option.some_bind]
  rw [pathStore_mod1]
  simp only [Option.some_bind]
  rw [pathStore_induce]
  simp only [Option.some_bind]
  have hdz0 : modularity_div_zero ((1 : ℕ) : ℚ) = false := by
    norm_num [modularity_div_zero]
  rw [hdz0, pathStore_loop]
  simp only [Option.some_bind, Option.pure_def]
  have hfl : flatten [[], [(1, 2), (2, 2)]] = [(1, 0), (2, 0)] := by
    norm_num [flatten, flattenGo, flattenStep, mgetI, mgetD, mset, mfind?]
  rw [hfl]

/-- Witness for `claim10_keys`: the complete driver run on the 2-vertex
path returns the mapping `{1 ↦ 0, 2 ↦ 0}` — values rewritten (to the
dropped-community default!), keys exactly the streamed vertices. -/
theorem claim10_witness : mkeys [(1, 0), (2, 0)] = pathStore.vertices :=
  claim10_keys pathStore min_modularity_growth_default 3 2 (by decide)
    (by decide) [(1, 0), (2, 0)] true pathStore_run

end Louvain
